import Mathlib

/-!
Shallow embedding of the rate-limited batch translation pipeline of
translate.py: the token bucket limiter, the unified translate_texts
call (batch and single mode) with its retry wrapper, the delimiter
join/split with reconciliation of segment counts, and the
presentation orchestrator with batching, write-back, progress and
failure accounting.
-/

namespace TranslatePpt

/-- Python strings, modelled as lists of characters. -/
abbrev PyStr := List Char

/-- Left half of Python str.strip: drop leading whitespace. -/
def stripLead (s : PyStr) : PyStr := s.dropWhile Char.isWhitespace

/-- Right half of Python str.strip: drop trailing whitespace. -/
def stripTrail (s : PyStr) : PyStr := (s.reverse.dropWhile Char.isWhitespace).reverse

/-- Python str.strip. -/
def pyStrip (s : PyStr) : PyStr := stripTrail (stripLead s)

/-- The reserved delimiter that the batch response is split on (line 137). -/
def marker : PyStr := ['-', '-', '-']

/-- The join delimiter for batch requests (line 98): the marker on its own line. -/
def joinDelim : PyStr := ['\n', '-', '-', '-', '\n']

/-- Python sep.join over a list of fragments. -/
def interSep (sep : PyStr) : List PyStr → PyStr
  | [] => []
  | [c] => c
  | c :: c2 :: cs => c ++ sep ++ interSep sep (c2 :: cs)

/-- The combined text sent in one batch request (line 98). -/
def combinedText (texts : List PyStr) : PyStr := interSep joinDelim texts

/-- Index of the leftmost occurrence of sep in s (the search underlying
Python str.split). -/
def findMatch (sep : PyStr) : PyStr → Option Nat
  | [] => if sep.isEmpty then some 0 else none
  | s@(_ :: tl) => if sep.isPrefixOf s then some 0 else (findMatch sep tl).map (· + 1)

/-- Python str.split on a non-empty separator, fuelled recursion on the
leftmost match; the fuel is always instantiated with the length of the
string, which suffices. -/
def pySplitAux (sep : PyStr) : Nat → PyStr → List PyStr
  | 0, s => [s]
  | fuel + 1, s =>
    match findMatch sep s with
    | none => [s]
    | some i => s.take i :: pySplitAux sep fuel (s.drop (i + sep.length))

/-- Python str.split on a non-empty separator. -/
def pySplit (sep s : PyStr) : List PyStr := pySplitAux sep s.length s

/-- The per-segment post-processing of a batch response (line 137):
split the response text on the marker and strip every segment. -/
def responseTranslations (response_text : PyStr) : List PyStr :=
  (pySplit marker response_text).map pyStrip

/-- The while loop of lines 142-143: append fallback texts at the current
length until the expected count is reached; an out-of-range index is a
Python IndexError, modelled as none.  The fuel is the number of
iterations the loop performs. -/
def padLoop (fallback : List PyStr) : Nat → List PyStr → Option (List PyStr)
  | 0, acc => some acc
  | fuel + 1, acc =>
    match fallback[acc.length]? with
    | some t => padLoop fallback fuel (acc ++ [t])
    | none => none

/-- The padding loop of lines 142-143; it runs while the accumulated
length is below the expected count, so it performs exactly
expected - length iterations. -/
def padTranslations (expected : Nat) (fallback translations : List PyStr) :
    Option (List PyStr) :=
  padLoop fallback (expected - translations.length) translations

/-- The count-mismatch reconciliation of lines 137-146: strip each raw
segment; if the count differs from the expected one, pad the tail with
the fallback texts at the same indices and truncate to the expected
count; none models an uncaught exception. -/
def reconcile (expectedCount : Nat) (rawSegments fallback : List PyStr) :
    Option (List PyStr) :=
  let translations := rawSegments.map pyStrip
  if translations.length ≠ expectedCount then
    (padTranslations expectedCount fallback translations).map
      (fun padded => padded.take expectedCount)
  else
    some translations

theorem padLoop_spec (fallback : List PyStr) :
    ∀ (fuel : Nat) (acc : List PyStr), acc.length + fuel ≤ fallback.length →
      padLoop fallback fuel acc =
        some (acc ++ (fallback.drop acc.length).take fuel) := by
  intro fuel
  induction fuel with
  | zero => intro acc _; simp [padLoop]
  | succ n ih =>
    intro acc hle
    have hlt : acc.length < fallback.length := by omega
    have hget : fallback[acc.length]? = some fallback[acc.length] :=
      List.getElem?_eq_getElem hlt
    have hdrop : fallback.drop acc.length =
        fallback[acc.length] :: fallback.drop (acc.length + 1) :=
      List.drop_eq_getElem_cons hlt
    simp only [padLoop, hget]
    rw [ih (acc ++ [fallback[acc.length]]) (by simp; omega)]
    simp only [List.length_append, List.length_cons, List.length_nil]
    rw [hdrop, List.take_succ_cons]
    simp [List.append_assoc]

theorem padTranslations_spec (expected : Nat) (fallback translations : List PyStr)
    (h : expected ≤ fallback.length) :
    padTranslations expected fallback translations =
      some (translations ++
        (fallback.drop translations.length).take (expected - translations.length)) := by
  unfold padTranslations
  rcases le_or_lt translations.length expected with hle | hgt
  · apply padLoop_spec
    omega
  · have h0 : expected - translations.length = 0 := by omega
    rw [h0]
    simp [padLoop]

/-- C1: reconciliation after the delimiter split returns a list of length
exactly expectedCount and never raises when the fallback list has length
expectedCount: on an exact count the stripped segments are returned as
they are, on a short count the tail is padded with the fallback texts at
the same indices, and on a long count the list is truncated to the first
expectedCount segments; in particular the two concrete laws
reconcile 3 [a,b] [x,y,z] = [a,b,z] and reconcile 2 [a,b,c] [x,y] = [a,b]
hold. -/
theorem reconcile_length_and_cases (n : Nat) (raw fallback : List PyStr)
    (h : fallback.length = n) :
    (∃ out, reconcile n raw fallback = some out ∧ out.length = n ∧
      (raw.length = n → out = raw.map pyStrip) ∧
      (raw.length < n → out = raw.map pyStrip ++ fallback.drop raw.length) ∧
      (n < raw.length → out = (raw.map pyStrip).take n)) ∧
    reconcile 3 [['a'], ['b']] [['x'], ['y'], ['z']] = some [['a'], ['b'], ['z']] ∧
    reconcile 2 [['a'], ['b'], ['c']] [['x'], ['y']] = some [['a'], ['b']] := by
  refine ⟨?_, by decide, by decide⟩
  have hlen : (raw.map pyStrip).length = raw.length := List.length_map ..
  have hpad := padTranslations_spec n fallback (raw.map pyStrip) (le_of_eq h.symm)
  rw [hlen] at hpad
  by_cases hc : raw.length = n
  · refine ⟨raw.map pyStrip, ?_, by omega, fun _ => rfl, by omega, by omega⟩
    simp [reconcile, hlen, hc]
  · rcases Nat.lt_or_ge raw.length n with hlt | hge
    · refine ⟨raw.map pyStrip ++ fallback.drop raw.length, ?_, ?_, by omega, fun _ => rfl, by omega⟩
      · have hdl : (fallback.drop raw.length).length = n - raw.length := by
          simp [List.length_drop, h]
        have htk : (fallback.drop raw.length).take (n - raw.length) =
            fallback.drop raw.length := List.take_of_length_le (le_of_eq hdl)
        rw [htk] at hpad
        have htot : (raw.map pyStrip ++ fallback.drop raw.length).take n =
            raw.map pyStrip ++ fallback.drop raw.length := by
          apply List.take_of_length_le
          simp only [List.length_append, hlen, hdl]
          omega
        simp [reconcile, hlen, hc, hpad, htot]
      · simp only [List.length_append, hlen, List.length_drop, h]
        omega
    · have hgt : n < raw.length := by omega
      refine ⟨(raw.map pyStrip).take n, ?_, ?_, by omega, by omega, fun _ => rfl⟩
      · have hdrop : fallback.drop raw.length = [] :=
          List.drop_eq_nil_of_le (by omega)
        rw [hdrop] at hpad
        simp only [List.take_nil, List.append_nil] at hpad
        simp [reconcile, hlen, hc, hpad]
      · simp only [List.length_take, hlen]
        omega

theorem reconcile_length_and_cases_witness :
    ([['x'], ['y'], ['z']] : List PyStr).length = 3 ∧
    ((∃ out, reconcile 3 [['a'], ['b']] [['x'], ['y'], ['z']] = some out ∧ out.length = 3 ∧
      (([['a'], ['b']] : List PyStr).length = 3 → out = [['a'], ['b']].map pyStrip) ∧
      (([['a'], ['b']] : List PyStr).length < 3 →
        out = [['a'], ['b']].map pyStrip ++ [['x'], ['y'], ['z']].drop [['a'], ['b']].length) ∧
      (3 < ([['a'], ['b']] : List PyStr).length →
        out = ([['a'], ['b']].map pyStrip).take 3)) ∧
    reconcile 3 [['a'], ['b']] [['x'], ['y'], ['z']] = some [['a'], ['b'], ['z']] ∧
    reconcile 2 [['a'], ['b'], ['c']] [['x'], ['y']] = some [['a'], ['b']]) :=
  ⟨by decide, reconcile_length_and_cases 3 [['a'], ['b']] [['x'], ['y'], ['z']] (by decide)⟩

/-- Observable side effects of one translate_texts attempt: acquiring a
token from the rate limiter (line 95) and issuing the remote converse
call (line 126). -/
inductive PipeEvent
  | tokenAcquired
  | remoteCall
deriving DecidableEq

/-- One outcome of the remote converse call: either it raises, or it
returns a response; none models a response without the output/message
keys, some content models the message content blocks (each block
contributing its text). -/
inductive ConverseOutcome
  | raises
  | returns (content : Option (List PyStr))

/-- One attempt of translate_texts in batch mode (lines 87-156): empty
input returns the empty list before any token is taken; otherwise a
token is acquired and the remote call issued; an exception from the
call is re-raised (line 156); a response without output/message keys or
with empty content falls through to returning the input texts
(line 150); otherwise the first content block is stripped, split on the
marker, each segment stripped, and the count mismatch repaired against
the input texts. -/
def translateTextsBatch (texts : List PyStr) (o : ConverseOutcome) :
    Except Unit (List PyStr) × List PipeEvent :=
  if texts.isEmpty then (Except.ok [], [])
  else
    let ev := [PipeEvent.tokenAcquired, PipeEvent.remoteCall]
    match o with
    | .raises => (Except.error (), ev)
    | .returns none => (Except.ok texts, ev)
    | .returns (some []) => (Except.ok texts, ev)
    | .returns (some (t :: _)) =>
      let response_text := pyStrip t
      let translations := responseTranslations response_text
      if translations.length = texts.length then (Except.ok translations, ev)
      else
        match padTranslations texts.length texts translations with
        | some padded => (Except.ok (padded.take texts.length), ev)
        | none => (Except.error (), ev)

/-- One attempt of translate_texts in single mode (batch=False): the
same control flow without the delimiter split; empty input returns the
empty string before any token is taken; a malformed or empty response
falls through to returning the input text (line 150). -/
def translateTextSingle (text : PyStr) (o : ConverseOutcome) :
    Except Unit PyStr × List PipeEvent :=
  if text.isEmpty then (Except.ok [], [])
  else
    let ev := [PipeEvent.tokenAcquired, PipeEvent.remoteCall]
    match o with
    | .raises => (Except.error (), ev)
    | .returns none => (Except.ok text, ev)
    | .returns (some []) => (Except.ok text, ev)
    | .returns (some (t :: _)) => (Except.ok (pyStrip t), ev)

/-- The tenacity retry wrapper of lines 81-86 around batch-mode
translate_texts, with stop_after_attempt bounding the attempts: attempt
i is run; an ok result returns at once; an exception is retried while
attempts remain and propagates once they are exhausted.  The event
trace concatenates the traces of the attempts made. -/
def retryBatch (texts : List PyStr) (outcomes : Nat → ConverseOutcome) :
    Nat → Nat → Except Unit (List PyStr) × List PipeEvent
  | _, 0 => (Except.error (), [])
  | i, rem + 1 =>
    let r := translateTextsBatch texts (outcomes i)
    match r.1 with
    | Except.ok v => (Except.ok v, r.2)
    | Except.error e =>
      if rem = 0 then (Except.error e, r.2)
      else
        let r2 := retryBatch texts outcomes (i + 1) rem
        (r2.1, r.2 ++ r2.2)

/-- C2 counterexample: a backend whose response has no output/message
keys on every attempt is not treated as a retryable error: the
decorated batch call makes a single attempt (one token acquisition and
one remote call), raises nothing, and returns the input texts unchanged
as a successful result, contradicting the claim that such a response is
retried and eventually propagates an exception. -/
theorem malformed_response_not_retried :
    retryBatch [['a']] (fun _ => ConverseOutcome.returns none) 0 3 =
      (Except.ok [['a']], [PipeEvent.tokenAcquired, PipeEvent.remoteCall]) := rfl

/-- C2 amended: an exception raised by the remote call is retried up to
the attempt ceiling of 3 (each attempt acquiring a token and issuing a
call) and the exception propagates to the caller once the ceiling is
exhausted; but a malformed response (missing output/message keys) or an
empty content list is not retried: the call returns the original input
texts as a successful result after a single attempt. -/
theorem retry_policy (texts : List PyStr) (outcomes : Nat → ConverseOutcome)
    (h : texts ≠ []) :
    ((∀ i, outcomes i = ConverseOutcome.raises) →
      retryBatch texts outcomes 0 3 =
        (Except.error (), [PipeEvent.tokenAcquired, PipeEvent.remoteCall,
          PipeEvent.tokenAcquired, PipeEvent.remoteCall,
          PipeEvent.tokenAcquired, PipeEvent.remoteCall])) ∧
    (outcomes 0 = ConverseOutcome.returns none →
      retryBatch texts outcomes 0 3 =
        (Except.ok texts, [PipeEvent.tokenAcquired, PipeEvent.remoteCall])) ∧
    (outcomes 0 = ConverseOutcome.returns (some []) →
      retryBatch texts outcomes 0 3 =
        (Except.ok texts, [PipeEvent.tokenAcquired, PipeEvent.remoteCall])) := by
  have hne : texts.isEmpty = false := by
    cases texts with
    | nil => exact absurd rfl h
    | cons a l => rfl
  refine ⟨fun hall => ?_, fun h0 => ?_, fun h0 => ?_⟩
  · simp [retryBatch, translateTextsBatch, hne, hall 0, hall 1, hall 2]
  · simp [retryBatch, translateTextsBatch, hne, h0]
  · simp [retryBatch, translateTextsBatch, hne, h0]

theorem retry_policy_witness :
    ([['a']] : List PyStr) ≠ [] ∧
    (((∀ i, (fun _ : Nat => ConverseOutcome.raises) i = ConverseOutcome.raises) →
      retryBatch [['a']] (fun _ : Nat => ConverseOutcome.raises) 0 3 =
        (Except.error (), [PipeEvent.tokenAcquired, PipeEvent.remoteCall,
          PipeEvent.tokenAcquired, PipeEvent.remoteCall,
          PipeEvent.tokenAcquired, PipeEvent.remoteCall])) ∧
    ((fun _ : Nat => ConverseOutcome.raises) 0 = ConverseOutcome.returns none →
      retryBatch [['a']] (fun _ : Nat => ConverseOutcome.raises) 0 3 =
        (Except.ok [['a']], [PipeEvent.tokenAcquired, PipeEvent.remoteCall])) ∧
    ((fun _ : Nat => ConverseOutcome.raises) 0 = ConverseOutcome.returns (some []) →
      retryBatch [['a']] (fun _ : Nat => ConverseOutcome.raises) 0 3 =
        (Except.ok [['a']], [PipeEvent.tokenAcquired, PipeEvent.remoteCall]))) :=
  ⟨by decide, retry_policy [['a']] (fun _ : Nat => ConverseOutcome.raises) (by decide)⟩

/-- C9: on empty input, translate_texts returns immediately with the
empty list in batch mode and the empty string in single mode, with an
empty event trace: no rate-limiter token is acquired and no remote call
is issued; the retry wrapper likewise returns at the first attempt. -/
theorem empty_input_short_circuit (o : ConverseOutcome)
    (outcomes : Nat → ConverseOutcome) :
    translateTextsBatch [] o = (Except.ok [], []) ∧
    translateTextSingle [] o = (Except.ok [], []) ∧
    retryBatch [] outcomes 0 3 = (Except.ok [], []) := by
  refine ⟨rfl, rfl, ?_⟩
  simp [retryBatch, translateTextsBatch]

/-- The TokenBucket state of lines 30-36: capacity, current tokens,
time of the last update and the refill rate in tokens per second.
Clock readings are rationals. -/
structure TokenBucket where
  capacity : ℚ
  tokens : ℚ
  lastUpdate : ℚ
  rate : ℚ
deriving DecidableEq

/-- The constructor of lines 31-36: the bucket starts full, with rate
requests_per_minute / 60. -/
def initBucket (requests_per_minute : ℚ) (t0 : ℚ) : TokenBucket :=
  { capacity := requests_per_minute
    tokens := requests_per_minute
    lastUpdate := t0
    rate := requests_per_minute / 60 }

/-- The lazy refill of lines 40-43: credit the elapsed time at the
refill rate, capped at the capacity. -/
def refillAmount (b : TokenBucket) (now : ℚ) : ℚ :=
  min b.capacity (b.tokens + (now - b.lastUpdate) * b.rate)

/-- get_token of lines 38-51: refill lazily from the clock reading now;
if fewer than one token is available, sleep and resume at clock reading
now2 with the count reset to the deducted level zero; otherwise deduct
exactly one token. -/
def get_token (b : TokenBucket) (now now2 : ℚ) : TokenBucket :=
  let tokens1 := refillAmount b now
  if tokens1 < 1 then
    { b with tokens := 0, lastUpdate := now2 }
  else
    { b with tokens := tokens1 - 1, lastUpdate := now }

/-- One acquire step over a pair of clock readings. -/
def bucketStep (b : TokenBucket) (c : ℚ × ℚ) : TokenBucket :=
  get_token b c.1 c.2

theorem bucketStep_capacity (b : TokenBucket) (c : ℚ × ℚ) :
    (bucketStep b c).capacity = b.capacity := by
  simp only [bucketStep, get_token]
  split <;> rfl

theorem bucketStep_tokens_bounds (b : TokenBucket) (c : ℚ × ℚ)
    (hcap : 1 ≤ b.capacity) :
    0 ≤ (bucketStep b c).tokens ∧ (bucketStep b c).tokens < b.capacity := by
  simp only [bucketStep, get_token]
  split_ifs with h
  · refine ⟨le_refl 0, ?_⟩
    show (0 : ℚ) < b.capacity
    linarith
  · push_neg at h
    have hle : refillAmount b c.1 ≤ b.capacity := min_le_left _ _
    refine ⟨?_, ?_⟩
    · show 0 ≤ refillAmount b c.1 - 1
      linarith
    · show refillAmount b c.1 - 1 < b.capacity
      linarith

theorem scanl_bucket_all {P : TokenBucket → Prop}
    (hstep : ∀ b c, P b → P (bucketStep b c)) :
    ∀ (calls : List (ℚ × ℚ)) (b : TokenBucket), P b →
      ∀ x ∈ List.scanl bucketStep b calls, P x := by
  intro calls
  induction calls with
  | nil => intro b hb x hx; simp [List.scanl] at hx; simpa [hx]
  | cons c cs ih =>
    intro b hb x hx
    simp only [List.scanl, List.mem_cons] at hx
    rcases hx with rfl | hx
    · exact hb
    · exact ih (bucketStep b c) (hstep b c hb) x hx

/-- C4: for every sequence of get_token calls on a bucket of capacity at
least one, the invariant 0 <= tokens <= capacity holds at every
observation point of the trace, the token count observed immediately
after each call lies in [0, capacity), and each call either deducts
exactly one token from a post-refill count of at least one or waits and
leaves the count at the deducted level zero. -/
theorem token_bucket_invariant (rpm t0 : ℚ) (hrpm : 1 ≤ rpm)
    (calls : List (ℚ × ℚ)) :
    (∀ st ∈ List.scanl bucketStep (initBucket rpm t0) calls,
      0 ≤ st.tokens ∧ st.tokens ≤ st.capacity ∧ st.capacity = rpm) ∧
    (∀ st ∈ (List.scanl bucketStep (initBucket rpm t0) calls).drop 1,
      st.tokens < st.capacity) ∧
    (∀ (b : TokenBucket) (now now2 : ℚ),
      (1 ≤ refillAmount b now → (get_token b now now2).tokens = refillAmount b now - 1) ∧
      (refillAmount b now < 1 → (get_token b now now2).tokens = 0)) := by
  have hInv : ∀ b c, (0 ≤ b.tokens ∧ b.tokens ≤ b.capacity ∧ b.capacity = rpm) →
      (0 ≤ (bucketStep b c).tokens ∧ (bucketStep b c).tokens ≤ (bucketStep b c).capacity ∧
        (bucketStep b c).capacity = rpm) := by
    intro b c ⟨h0, h1, h2⟩
    have hb := bucketStep_tokens_bounds b c (by rw [h2]; exact hrpm)
    rw [bucketStep_capacity]
    exact ⟨hb.1, le_of_lt (by rw [h2] at hb ⊢; exact hb.2), h2⟩
  refine ⟨?_, ?_, ?_⟩
  · exact scanl_bucket_all hInv calls (initBucket rpm t0)
      ⟨by simp [initBucket]; linarith, by simp [initBucket], rfl⟩
  · cases calls with
    | nil => intro st hst; simp [List.scanl] at hst
    | cons c cs =>
      intro st hst
      simp only [List.scanl, List.drop_succ_cons, List.drop_zero] at hst
      have hQ : ∀ b c2, ((0 ≤ b.tokens ∧ b.tokens ≤ b.capacity ∧ b.capacity = rpm) ∧
          b.tokens < b.capacity) →
          ((0 ≤ (bucketStep b c2).tokens ∧ (bucketStep b c2).tokens ≤ (bucketStep b c2).capacity ∧
            (bucketStep b c2).capacity = rpm) ∧ (bucketStep b c2).tokens < (bucketStep b c2).capacity) := by
        intro b c2 ⟨hI, _⟩
        refine ⟨hInv b c2 hI, ?_⟩
        have hb := bucketStep_tokens_bounds b c2 (by rw [hI.2.2]; exact hrpm)
        rw [bucketStep_capacity]
        exact hb.2
      have hstart : (0 ≤ (bucketStep (initBucket rpm t0) c).tokens ∧
          (bucketStep (initBucket rpm t0) c).tokens ≤ (bucketStep (initBucket rpm t0) c).capacity ∧
          (bucketStep (initBucket rpm t0) c).capacity = rpm) ∧
          (bucketStep (initBucket rpm t0) c).tokens < (bucketStep (initBucket rpm t0) c).capacity := by
        refine ⟨hInv (initBucket rpm t0) c ⟨by simp [initBucket]; linarith, by simp [initBucket], rfl⟩, ?_⟩
        have hb := bucketStep_tokens_bounds (initBucket rpm t0) c (by simp [initBucket]; exact hrpm)
        rw [bucketStep_capacity]
        simpa [initBucket] using hb.2
      exact (scanl_bucket_all hQ cs (bucketStep (initBucket rpm t0) c) hstart st hst).2
  · intro b now now2
    constructor
    · intro hge
      simp only [get_token]
      rw [if_neg (by linarith)]
    · intro hlt
      simp only [get_token]
      rw [if_pos hlt]

theorem token_bucket_invariant_witness :
    (1 : ℚ) ≤ 10 ∧
    ((∀ st ∈ List.scanl bucketStep (initBucket 10 0) [(0, 0), (6, 6)],
      0 ≤ st.tokens ∧ st.tokens ≤ st.capacity ∧ st.capacity = 10) ∧
    (∀ st ∈ (List.scanl bucketStep (initBucket 10 0) [(0, 0), (6, 6)]).drop 1,
      st.tokens < st.capacity) ∧
    (∀ (b : TokenBucket) (now now2 : ℚ),
      (1 ≤ refillAmount b now → (get_token b now now2).tokens = refillAmount b now - 1) ∧
      (refillAmount b now < 1 → (get_token b now now2).tokens = 0))) :=
  ⟨by norm_num, token_bucket_invariant 10 0 (by norm_num) [(0, 0), (6, 6)]⟩

/-- The mutable state of translate_presentation_with_batching
(lines 158-228): the run texts of the presentation by position, the
open batch as position-text pairs (text_batch and text_locations grow
in lockstep), total_processed, the global progress counters, the failed
batches, the dispatched batch texts (in dispatch order, recorded for
the analysis) and the number of dispatches so far (used to index the
abstract backend). -/
structure OrchSt where
  doc : List PyStr
  pending : List (Nat × PyStr)
  processed : Nat
  current : Nat
  total : Nat
  failed : List (List PyStr × List Nat)
  dispatched : List (List PyStr)
  k : Nat
deriving DecidableEq

/-- Dispatch of one closed batch (lines 195-211 in the main loop,
215-225 at the flush): call the translator on the batch texts; on
success write translation i back to location i (guarded by
i < len(text_locations)), count each write into total_processed, and in
the main loop (isFlush = false) also publish it to the progress
counter; on an exception record the batch and its locations in the
failed list; in both cases the open batch is reset. -/
def dispatch (tk : Nat → List PyStr → Except Unit (List PyStr))
    (isFlush : Bool) (st : OrchSt) : OrchSt :=
  let texts := st.pending.map Prod.snd
  let locs := st.pending.map Prod.fst
  match tk st.k texts with
  | Except.ok ts =>
    let pairs := ts.zip locs
    { st with
      doc := pairs.foldl (fun d tp => d.set tp.2 tp.1) st.doc
      pending := []
      processed := st.processed + pairs.length
      current := if isFlush || pairs.isEmpty then st.current else st.processed + pairs.length
      dispatched := st.dispatched ++ [texts]
      k := st.k + 1 }
  | Except.error _ =>
    { st with
      pending := []
      failed := st.failed ++ [(texts, locs)]
      dispatched := st.dispatched ++ [texts]
      k := st.k + 1 }

/-- The traversal loop of lines 184-211: stream the run texts in
document order with their positions, skip runs whose stripped text is
empty, append the others to the open batch, and dispatch as soon as
the open batch reaches the batch size. -/
def orchLoop (tk : Nat → List PyStr → Except Unit (List PyStr)) (b : Nat) :
    List PyStr → Nat → OrchSt → OrchSt
  | [], _, st => st
  | t :: rest, p, st =>
    if (pyStrip t).isEmpty then
      orchLoop tk b rest (p + 1) st
    else
      let st1 := { st with pending := st.pending ++ [(p, t)] }
      if b ≤ st1.pending.length then
        orchLoop tk b rest (p + 1) (dispatch tk false st1)
      else
        orchLoop tk b rest (p + 1) st1

/-- The initial state of lines 164-180: empty batch, zero counters, and
the progress total set to the number of runs with non-empty stripped
text. -/
def initSt (doc : List PyStr) : OrchSt :=
  { doc := doc
    pending := []
    processed := 0
    current := 0
    total := (doc.filter (fun t => !(pyStrip t).isEmpty)).length
    failed := []
    dispatched := []
    k := 0 }

/-- The final flush of lines 214-225: dispatch the remaining open batch
if it is non-empty; the flush branch does not publish to the progress
counter. -/
def finishFlush (tk : Nat → List PyStr → Except Unit (List PyStr))
    (st : OrchSt) : OrchSt :=
  if st.pending.isEmpty then st else dispatch tk true st

/-- translate_presentation_with_batching, lines 158-228, over an
abstract translator tk indexed by the dispatch counter: count the
non-empty runs, stream the runs through the batching loop, and flush
the final partial batch. -/
def translatePresentation (tk : Nat → List PyStr → Except Unit (List PyStr))
    (b : Nat) (doc : List PyStr) : OrchSt :=
  finishFlush tk (orchLoop tk b doc 0 (initSt doc))

/-- C6 is refuted by the code: with seven non-empty fragments, batch
size five, and a backend that succeeds on every call, the main-loop
batch of five advances the progress counter to five, and the final
flushed batch of two is written back and counted into total_processed
(seven), but translation_progress.current is never updated in the
flush branch, ending at five although the progress total is seven. -/
theorem final_flush_skips_progress :
    let doc : List PyStr := [['a'], ['b'], ['c'], ['d'], ['e'], ['f'], ['g']]
    let tk : Nat → List PyStr → Except Unit (List PyStr) :=
      fun _ ts => Except.ok (ts.map (fun t => '!' :: t))
    let R := translatePresentation tk 5 doc
    R.current = 5 ∧ R.processed = 7 ∧ R.total = 7 ∧
      R.doc = doc.map (fun t => '!' :: t) ∧ R.failed = [] ∧
      R.dispatched = [[['a'], ['b'], ['c'], ['d'], ['e']], [['f'], ['g']]] := by
  decide

universe u

/-- Fixed-size grouping of a list into consecutive chunks, fuelled by
the length of the list (which bounds the number of chunks when the
chunk size is positive). -/
def chunksAux {α : Type u} (b : Nat) : Nat → List α → List (List α)
  | _, [] => []
  | 0, _ :: _ => []
  | fuel + 1, x :: xs => ((x :: xs).take b) :: chunksAux b fuel ((x :: xs).drop b)

/-- Fixed-size grouping of a list into consecutive chunks; the final
chunk is shorter when the length is not a multiple of the chunk size,
and absent when the list is empty. -/
def chunksOf {α : Type u} (b : Nat) (l : List α) : List (List α) :=
  chunksAux b l.length l

theorem chunksAux_congr {α : Type u} (b : Nat) (hb : 1 ≤ b) :
    ∀ (fuel1 fuel2 : Nat) (l : List α), l.length ≤ fuel1 → l.length ≤ fuel2 →
      chunksAux b fuel1 l = chunksAux b fuel2 l := by
  intro fuel1
  induction fuel1 with
  | zero =>
    intro fuel2 l h1 _
    have hl : l = [] := List.eq_nil_of_length_eq_zero (by omega)
    subst hl
    cases fuel2 <;> rfl
  | succ n ih =>
    intro fuel2 l h1 h2
    cases l with
    | nil => cases fuel2 <;> rfl
    | cons x xs =>
      cases fuel2 with
      | zero => simp at h2
      | succ m =>
        simp only [chunksAux]
        congr 1
        apply ih
        · simp only [List.length_drop, List.length_cons] at *
          omega
        · simp only [List.length_drop, List.length_cons] at *
          omega

theorem chunksOf_cons {α : Type u} (b : Nat) (hb : 1 ≤ b) (l : List α)
    (hl : l ≠ []) :
    chunksOf b l = l.take b :: chunksOf b (l.drop b) := by
  cases l with
  | nil => exact absurd rfl hl
  | cons x xs =>
    show chunksAux b (xs.length + 1) (x :: xs) = _
    simp only [chunksAux]
    congr 1
    apply chunksAux_congr b hb
    · simp only [List.length_drop, List.length_cons]
      omega
    · exact le_refl _

theorem chunksOf_singleton {α : Type u} (b : Nat) (hb : 1 ≤ b) (l : List α)
    (hl : l ≠ []) (hlen : l.length ≤ b) : chunksOf b l = [l] := by
  rw [chunksOf_cons b hb l hl, List.take_of_length_le hlen,
    List.drop_eq_nil_of_le hlen]
  rfl

theorem chunksOf_append_of_length_eq {α : Type u} (b : Nat) (hb : 1 ≤ b)
    (pref suf : List α) (hp : pref.length = b) :
    chunksOf b (pref ++ suf) = pref :: chunksOf b suf := by
  have hne : pref ++ suf ≠ [] := by
    intro h
    rcases List.append_eq_nil.mp h with ⟨h1, _⟩
    rw [h1] at hp
    simp at hp
    omega
  rw [chunksOf_cons b hb _ hne]
  congr 1
  · rw [← hp, List.take_left]
  · rw [← hp, List.drop_left]

theorem chunksAux_flatten {α : Type u} (b : Nat) (hb : 1 ≤ b) :
    ∀ (fuel : Nat) (l : List α), l.length ≤ fuel →
      (chunksAux b fuel l).flatten = l := by
  intro fuel
  induction fuel with
  | zero =>
    intro l h
    have hl : l = [] := List.eq_nil_of_length_eq_zero (by omega)
    subst hl
    rfl
  | succ n ih =>
    intro l h
    cases l with
    | nil => rfl
    | cons x xs =>
      simp only [chunksAux, List.flatten_cons]
      rw [ih _ (by simp only [List.length_drop, List.length_cons] at *; omega)]
      exact List.take_append_drop b (x :: xs)

theorem chunksOf_flatten {α : Type u} (b : Nat) (hb : 1 ≤ b) (l : List α) :
    (chunksOf b l).flatten = l :=
  chunksAux_flatten b hb l.length l (le_refl _)

theorem chunksAux_map_length {α : Type u} (b : Nat) (hb : 1 ≤ b) :
    ∀ (fuel : Nat) (l : List α), l.length ≤ fuel →
      (chunksAux b fuel l).map List.length =
        List.replicate (l.length / b) b ++
          (if l.length % b = 0 then [] else [l.length % b]) := by
  intro fuel
  induction fuel with
  | zero =>
    intro l h
    have hl : l = [] := List.eq_nil_of_length_eq_zero (by omega)
    subst hl
    simp [chunksAux]
  | succ n ih =>
    intro l h
    cases l with
    | nil => simp [chunksAux]
    | cons x xs =>
      have hlen : (x :: xs).length = xs.length + 1 := rfl
      rcases le_or_lt b (xs.length + 1) with hble | hbgt
      · simp only [chunksAux, List.map_cons]
        rw [ih _ (by simp only [List.length_drop, List.length_cons]; omega)]
        have htl : ((x :: xs).take b).length = b := by
          rw [List.length_take]
          simp only [List.length_cons]
          omega
        have hdl : ((x :: xs).drop b).length = xs.length + 1 - b := by
          simp [List.length_drop]
        rw [htl, hdl, hlen]
        rw [Nat.div_eq_sub_div (by omega) hble, Nat.mod_eq_sub_mod hble]
        simp [List.replicate_succ]
      · have hdrop : (x :: xs).drop b = [] :=
          List.drop_eq_nil_of_le (by simp only [List.length_cons]; omega)
        have htake : (x :: xs).take b = x :: xs :=
          List.take_of_length_le (by simp only [List.length_cons]; omega)
        simp only [chunksAux, hdrop, htake, hlen]
        rw [Nat.div_eq_of_lt hbgt, Nat.mod_eq_of_lt hbgt]
        have : ¬(xs.length + 1 = 0) := by omega
        simp [this]

theorem chunksOf_map_length {α : Type u} (b : Nat) (hb : 1 ≤ b) (l : List α) :
    (chunksOf b l).map List.length =
      List.replicate (l.length / b) b ++
        (if l.length % b = 0 then [] else [l.length % b]) :=
  chunksAux_map_length b hb l.length l (le_refl _)

theorem chunksAux_map {α : Type u} {β : Type u} (b : Nat) (f : α → β) :
    ∀ (fuel : Nat) (l : List α),
      (chunksAux b fuel l).map (List.map f) = chunksAux b fuel (l.map f) := by
  intro fuel
  induction fuel with
  | zero => intro l; cases l <;> rfl
  | succ n ih =>
    intro l
    cases l with
    | nil => rfl
    | cons x xs =>
      simp only [chunksAux, List.map_cons, List.map_take, List.map_drop, ih]

theorem chunksOf_map {α : Type u} {β : Type u} (b : Nat) (f : α → β)
    (l : List α) :
    (chunksOf b l).map (List.map f) = chunksOf b (l.map f) := by
  unfold chunksOf
  rw [chunksAux_map b f l.length l, List.length_map]

/-- The positions and texts of the runs with non-empty stripped text,
in document order, starting the position count at p. -/
def eFilt (p : Nat) (l : List PyStr) : List (Nat × PyStr) :=
  (List.enumFrom p l).filter (fun q => !(pyStrip q.2).isEmpty)

theorem eFilt_nil (p : Nat) : eFilt p [] = [] := rfl

theorem eFilt_cons (p : Nat) (t : PyStr) (rest : List PyStr) :
    eFilt p (t :: rest) =
      if (pyStrip t).isEmpty then eFilt (p + 1) rest
      else (p, t) :: eFilt (p + 1) rest := by
  simp only [eFilt, List.enumFrom, List.filter_cons]
  by_cases h : (pyStrip t).isEmpty <;> simp [h]

theorem eFilt_map_snd :
    ∀ (l : List PyStr) (p : Nat),
      (eFilt p l).map Prod.snd = l.filter (fun t => !(pyStrip t).isEmpty) := by
  intro l
  induction l with
  | nil => intro p; rfl
  | cons t rest ih =>
    intro p
    rw [eFilt_cons, List.filter_cons]
    by_cases h : (pyStrip t).isEmpty <;> simp [h, ih]

/-- One step of the reference two-phase run: dispatch an assembled
batch; the flush flag is set exactly for a batch shorter than the batch
size, which can only be the final one. -/
def dispatchStep (tk : Nat → List PyStr → Except Unit (List PyStr))
    (b : Nat) (st : OrchSt) (batch : List (Nat × PyStr)) : OrchSt :=
  dispatch tk (decide (batch.length < b)) { st with pending := batch }

/-- Reference semantics following the specification: assemble all
batches of the non-empty fragments first, in discovery order and of the
fixed batch size with a final short batch, then dispatch them in
order.  The streaming orchestrator is proved equal to this. -/
def specOrderedRun (tk : Nat → List PyStr → Except Unit (List PyStr))
    (b : Nat) (doc : List PyStr) : OrchSt :=
  (chunksOf b (eFilt 0 doc)).foldl (dispatchStep tk b) (initSt doc)

theorem dispatch_pending (tk : Nat → List PyStr → Except Unit (List PyStr))
    (f : Bool) (st : OrchSt) : (dispatch tk f st).pending = [] := by
  simp only [dispatch]
  cases h : tk st.k (List.map Prod.snd st.pending) <;> simp [h]

theorem orchLoop_foldl (tk : Nat → List PyStr → Except Unit (List PyStr))
    (b : Nat) (hb : 1 ≤ b) :
    ∀ (rest : List PyStr) (p : Nat) (st : OrchSt), st.pending.length < b →
      finishFlush tk (orchLoop tk b rest p st) =
        (chunksOf b (st.pending ++ eFilt p rest)).foldl (dispatchStep tk b) st := by
  intro rest
  induction rest with
  | nil =>
    intro p st hst
    rw [eFilt_nil, List.append_nil]
    by_cases hpe : st.pending = []
    · rw [hpe]
      simp only [orchLoop, finishFlush, hpe, List.isEmpty_nil, if_true]
      rfl
    · have hch : chunksOf b st.pending = [st.pending] :=
        chunksOf_singleton b hb st.pending hpe (le_of_lt hst)
      rw [hch]
      simp only [orchLoop, finishFlush, List.foldl_cons, List.foldl_nil]
      rw [if_neg (by simpa [List.isEmpty_iff] using hpe)]
      unfold dispatchStep
      congr 1
      exact (decide_eq_true hst).symm
  | cons t rest ih =>
    intro p st hst
    rw [eFilt_cons]
    by_cases hemp : (pyStrip t).isEmpty
    · simp only [orchLoop, hemp, if_true]
      exact ih (p + 1) st hst
    · simp only [orchLoop, hemp, Bool.false_eq_true, if_false]
      by_cases hfull : b ≤ (st.pending ++ [(p, t)]).length
      · have hlen : (st.pending ++ [(p, t)]).length = b := by
          simp only [List.length_append, List.length_cons, List.length_nil] at hfull ⊢
          omega
        rw [if_pos hfull]
        rw [ih (p + 1) (dispatch tk false { st with pending := st.pending ++ [(p, t)] })
          (by rw [dispatch_pending]; show 0 < b; omega)]
        rw [dispatch_pending, List.nil_append]
        rw [List.append_cons st.pending (p, t) (eFilt (p + 1) rest)]
        rw [chunksOf_append_of_length_eq b hb _ _ hlen]
        rw [List.foldl_cons]
        congr 1
        unfold dispatchStep
        rw [hlen]
        congr 1
        simp
      · have hlt : (st.pending ++ [(p, t)]).length < b := by
          omega
        rw [if_neg hfull]
        rw [ih (p + 1) { st with pending := st.pending ++ [(p, t)] } hlt]
        rw [List.append_cons st.pending (p, t) (eFilt (p + 1) rest)]
        have hne : (st.pending ++ [(p, t)]) ++ eFilt (p + 1) rest ≠ [] := by
          intro h
          rcases List.append_eq_nil.mp h with ⟨h1, _⟩
          simp at h1
        rw [chunksOf_cons b hb _ hne, List.foldl_cons, List.foldl_cons]
        rfl

/-- The streaming orchestrator equals the reference two-phase run. -/
theorem translatePresentation_eq_spec
    (tk : Nat → List PyStr → Except Unit (List PyStr)) (b : Nat)
    (doc : List PyStr) (hb : 1 ≤ b) :
    translatePresentation tk b doc = specOrderedRun tk b doc := by
  unfold translatePresentation specOrderedRun
  have h := orchLoop_foldl tk b hb doc 0 (initSt doc)
    (by show 0 < b; omega)
  simpa only [initSt, List.nil_append] using h

theorem foldl_set_length (pairs : List (PyStr × Nat)) :
    ∀ d : List PyStr,
      (pairs.foldl (fun d tp => d.set tp.2 tp.1) d).length = d.length := by
  induction pairs with
  | nil => intro d; rfl
  | cons tp ps ih =>
    intro d
    rw [List.foldl_cons, ih, List.length_set]

theorem dispatch_doc_length (tk : Nat → List PyStr → Except Unit (List PyStr))
    (f : Bool) (st : OrchSt) : (dispatch tk f st).doc.length = st.doc.length := by
  simp only [dispatch]
  cases h : tk st.k (List.map Prod.snd st.pending) with
  | ok ts => simp [h, foldl_set_length]
  | error e => simp [h]

theorem foldl_dispatchStep_doc_length
    (tk : Nat → List PyStr → Except Unit (List PyStr)) (b : Nat) :
    ∀ (chunks : List (List (Nat × PyStr))) (st : OrchSt),
      ((chunks.foldl (dispatchStep tk b) st).doc).length = st.doc.length := by
  intro chunks
  induction chunks with
  | nil => intro st; rfl
  | cons c cs ih =>
    intro st
    rw [List.foldl_cons, ih]
    show (dispatch tk _ { st with pending := c }).doc.length = _
    rw [dispatch_doc_length]

/-- C8: translated or fallback texts are applied to fragments in the
exact order the fragments were discovered: the streaming orchestrator
equals the reference two-phase run that assembles the batches of
non-empty fragments in discovery order and writes segment i of each
batch response back to the position of fragment i of that batch; the
output document has the same length as the input, so the
position-to-fragment mapping is unchanged. -/
theorem order_preservation (tk : Nat → List PyStr → Except Unit (List PyStr))
    (b : Nat) (doc : List PyStr) (hb : 1 ≤ b) :
    translatePresentation tk b doc = specOrderedRun tk b doc ∧
    (translatePresentation tk b doc).doc.length = doc.length := by
  refine ⟨translatePresentation_eq_spec tk b doc hb, ?_⟩
  rw [translatePresentation_eq_spec tk b doc hb]
  unfold specOrderedRun
  rw [foldl_dispatchStep_doc_length]
  rfl

theorem order_preservation_witness :
    1 ≤ 5 ∧
    (translatePresentation (fun (_ : Nat) (ts : List PyStr) => Except.ok ts) 5
        [['a'], ['b'], ['c']] =
      specOrderedRun (fun (_ : Nat) (ts : List PyStr) => Except.ok ts) 5
        [['a'], ['b'], ['c']] ∧
    (translatePresentation (fun (_ : Nat) (ts : List PyStr) => Except.ok ts) 5
        [['a'], ['b'], ['c']]).doc.length = ([['a'], ['b'], ['c']] : List PyStr).length) :=
  ⟨by decide,
    order_preservation (fun (_ : Nat) (ts : List PyStr) => Except.ok ts) 5
      [['a'], ['b'], ['c']] (by decide)⟩

theorem dispatch_dispatched (tk : Nat → List PyStr → Except Unit (List PyStr))
    (f : Bool) (st : OrchSt) :
    (dispatch tk f st).dispatched = st.dispatched ++ [st.pending.map Prod.snd] := by
  simp only [dispatch]
  cases h : tk st.k (List.map Prod.snd st.pending) <;> simp [h]

theorem foldl_dispatchStep_dispatched
    (tk : Nat → List PyStr → Except Unit (List PyStr)) (b : Nat) :
    ∀ (chunks : List (List (Nat × PyStr))) (st : OrchSt),
      ((chunks.foldl (dispatchStep tk b) st).dispatched) =
        st.dispatched ++ chunks.map (List.map Prod.snd) := by
  intro chunks
  induction chunks with
  | nil => intro st; simp
  | cons c cs ih =>
    intro st
    rw [List.foldl_cons, ih]
    show (dispatch tk _ { st with pending := c }).dispatched ++ _ = _
    rw [dispatch_dispatched]
    simp

/-- C7: the orchestrator dispatches exactly the consecutive fixed-size
groups of the non-empty fragments, in offer order: a batch is closed
exactly when it reaches the batch size, the flushed final batch is
dispatched iff it is non-empty, the dispatched batch sizes are
length / b full batches of size b followed by one batch of length % b
when that is non-zero, and their concatenation is the non-empty
fragment stream itself; in particular with batch size 5 and 12 offered
fragments the batch sizes are [5, 5, 2]. -/
theorem batch_assembly (tk : Nat → List PyStr → Except Unit (List PyStr))
    (b : Nat) (doc : List PyStr) (hb : 1 ≤ b) :
    ((translatePresentation tk b doc).dispatched =
      chunksOf b (doc.filter (fun t => !(pyStrip t).isEmpty)) ∧
    (translatePresentation tk b doc).dispatched.map List.length =
      List.replicate ((doc.filter (fun t => !(pyStrip t).isEmpty)).length / b) b ++
        (if (doc.filter (fun t => !(pyStrip t).isEmpty)).length % b = 0 then []
         else [(doc.filter (fun t => !(pyStrip t).isEmpty)).length % b]) ∧
    (translatePresentation tk b doc).dispatched.flatten =
      doc.filter (fun t => !(pyStrip t).isEmpty)) ∧
    (translatePresentation (fun (_ : Nat) (ts : List PyStr) => Except.ok ts) 5
      [['a'], ['b'], ['c'], ['d'], ['e'], ['f'], ['g'], ['h'], ['i'], ['j'],
        ['k'], ['l']]).dispatched.map List.length = [5, 5, 2] := by
  have hd : (translatePresentation tk b doc).dispatched =
      chunksOf b (doc.filter (fun t => !(pyStrip t).isEmpty)) := by
    rw [translatePresentation_eq_spec tk b doc hb]
    unfold specOrderedRun
    rw [foldl_dispatchStep_dispatched]
    show [] ++ _ = _
    rw [List.nil_append, chunksOf_map, eFilt_map_snd]
  refine ⟨⟨hd, ?_, ?_⟩, by decide⟩
  · rw [hd, chunksOf_map_length b hb]
  · rw [hd, chunksOf_flatten b hb]

theorem batch_assembly_witness :
    1 ≤ 5 ∧
    (translatePresentation (fun (_ : Nat) (ts : List PyStr) => Except.ok ts) 5
      [['a'], ['b'], ['c'], ['d'], ['e'], ['f'], ['g'], ['h'], ['i'], ['j'],
        ['k'], ['l']]).dispatched.map List.length = [5, 5, 2] :=
  ⟨by decide,
    (batch_assembly (fun (_ : Nat) (ts : List PyStr) => Except.ok ts) 5
      [['a'], ['b'], ['c'], ['d'], ['e'], ['f'], ['g'], ['h'], ['i'], ['j'],
        ['k'], ['l']] (by decide)).2⟩

/-- The failed-batch records predicted from the assembled chunks: for
every chunk whose translator call raises, the pair of its texts and its
locations, in dispatch order; k0 is the dispatch counter of the first
chunk. -/
def failedSpec (tk : Nat → List PyStr → Except Unit (List PyStr))
    (k0 : Nat) (chunks : List (List (Nat × PyStr))) :
    List (List PyStr × List Nat) :=
  (List.enumFrom k0 chunks).filterMap (fun kb =>
    match tk kb.1 (kb.2.map Prod.snd) with
    | Except.ok _ => none
    | Except.error _ => some (kb.2.map Prod.snd, kb.2.map Prod.fst))

theorem failedSpec_nil (tk : Nat → List PyStr → Except Unit (List PyStr))
    (k0 : Nat) : failedSpec tk k0 [] = [] := rfl

theorem failedSpec_cons (tk : Nat → List PyStr → Except Unit (List PyStr))
    (k0 : Nat) (c : List (Nat × PyStr)) (cs : List (List (Nat × PyStr))) :
    failedSpec tk k0 (c :: cs) =
      match tk k0 (c.map Prod.snd) with
      | Except.ok _ => failedSpec tk (k0 + 1) cs
      | Except.error _ =>
        (c.map Prod.snd, c.map Prod.fst) :: failedSpec tk (k0 + 1) cs := by
  simp only [failedSpec, List.enumFrom, List.filterMap_cons]
  cases h : tk k0 (c.map Prod.snd) <;> simp [h]

theorem dispatch_k (tk : Nat → List PyStr → Except Unit (List PyStr))
    (f : Bool) (st : OrchSt) : (dispatch tk f st).k = st.k + 1 := by
  simp only [dispatch]
  cases h : tk st.k (List.map Prod.snd st.pending) <;> simp [h]

theorem dispatch_failed (tk : Nat → List PyStr → Except Unit (List PyStr))
    (f : Bool) (st : OrchSt) :
    (dispatch tk f st).failed =
      match tk st.k (st.pending.map Prod.snd) with
      | Except.ok _ => st.failed
      | Except.error _ =>
        st.failed ++ [(st.pending.map Prod.snd, st.pending.map Prod.fst)] := by
  simp only [dispatch]
  cases h : tk st.k (List.map Prod.snd st.pending) <;> simp [h]

theorem foldl_dispatchStep_failed
    (tk : Nat → List PyStr → Except Unit (List PyStr)) (b : Nat) :
    ∀ (chunks : List (List (Nat × PyStr))) (st : OrchSt),
      (chunks.foldl (dispatchStep tk b) st).failed =
        st.failed ++ failedSpec tk st.k chunks := by
  intro chunks
  induction chunks with
  | nil => intro st; simp [failedSpec_nil]
  | cons c cs ih =>
    intro st
    rw [List.foldl_cons, ih, failedSpec_cons]
    have hk : (dispatchStep tk b st c).k = st.k + 1 := dispatch_k tk _ _
    rw [hk]
    have hf := dispatch_failed tk (decide (c.length < b)) { st with pending := c }
    show (dispatchStep tk b st c).failed ++ _ = _
    unfold dispatchStep
    rw [hf]
    cases h : tk st.k (c.map Prod.snd) <;> simp [h]

theorem foldl_set_getElem?_of_not_mem (p : Nat) :
    ∀ (pairs : List (PyStr × Nat)) (d : List PyStr),
      (∀ tp ∈ pairs, tp.2 ≠ p) →
      (pairs.foldl (fun d tp => d.set tp.2 tp.1) d)[p]? = d[p]? := by
  intro pairs
  induction pairs with
  | nil => intro d _; rfl
  | cons tp ps ih =>
    intro d h
    rw [List.foldl_cons, ih _ (fun x hx => h x (List.mem_cons_of_mem _ hx))]
    exact List.getElem?_set_ne (h tp (List.mem_cons_self _ _))

theorem dispatch_doc_getElem? (tk : Nat → List PyStr → Except Unit (List PyStr))
    (f : Bool) (st : OrchSt) (p : Nat)
    (h : ∀ ts, tk st.k (st.pending.map Prod.snd) = Except.ok ts →
      ∀ q ∈ st.pending, q.1 ≠ p) :
    (dispatch tk f st).doc[p]? = st.doc[p]? := by
  simp only [dispatch]
  cases hk : tk st.k (List.map Prod.snd st.pending) with
  | ok ts =>
    simp only [hk]
    apply foldl_set_getElem?_of_not_mem
    intro tp htp
    have hmem := List.of_mem_zip htp
    rcases List.mem_map.mp hmem.2 with ⟨q, hq, hq2⟩
    rw [← hq2]
    exact h ts hk q hq
  | error e => simp [hk]

theorem foldl_dispatchStep_doc_getElem?
    (tk : Nat → List PyStr → Except Unit (List PyStr)) (b : Nat) (p : Nat) :
    ∀ (chunks : List (List (Nat × PyStr))) (st : OrchSt),
      (∀ j batch, chunks[j]? = some batch →
        (∃ e, tk (st.k + j) (batch.map Prod.snd) = Except.error e) ∨
          ∀ q ∈ batch, q.1 ≠ p) →
      ((chunks.foldl (dispatchStep tk b) st).doc)[p]? = st.doc[p]? := by
  intro chunks
  induction chunks with
  | nil => intro st _; rfl
  | cons c cs ih =>
    intro st h
    rw [List.foldl_cons]
    have hk : (dispatchStep tk b st c).k = st.k + 1 := dispatch_k tk _ _
    rw [ih (dispatchStep tk b st c) ?_]
    · show (dispatch tk _ { st with pending := c }).doc[p]? = _
      apply dispatch_doc_getElem?
      intro ts hok q hq
      rcases h 0 c (by simp) with herr | hok2
      · rcases herr with ⟨e, herr⟩
        rw [Nat.add_zero] at herr
        rw [herr] at hok
        cases hok
      · exact hok2 q hq
    · intro j batch hj
      have hx := h (j + 1) batch (by simpa using hj)
      rw [hk]
      have harith : st.k + (j + 1) = st.k + 1 + j := by omega
      rw [harith] at hx
      exact hx

theorem eFilt_fst_nodup (p : Nat) (l : List PyStr) :
    ((eFilt p l).map Prod.fst).Nodup := by
  have hsub : ((eFilt p l).map Prod.fst).Sublist
      ((List.enumFrom p l).map Prod.fst) :=
    (List.filter_sublist _).map Prod.fst
  rw [List.enumFrom_map_fst] at hsub
  exact List.Nodup.sublist hsub (List.nodup_range' p l.length)

theorem eFilt_mem_getElem? (l : List PyStr) (q : Nat × PyStr)
    (hq : q ∈ eFilt 0 l) : l[q.1]? = some q.2 := by
  have hqe : q ∈ List.enumFrom 0 l := List.mem_of_mem_filter hq
  have h := List.mem_enumFrom (show (q.1, q.2) ∈ List.enumFrom 0 l from hqe)
  rcases h with ⟨_, hlt, heq⟩
  have hlt2 : q.1 < l.length := by omega
  rw [List.getElem?_eq_getElem hlt2]
  rw [heq]
  congr 1

theorem chunks_fst_pairwise_disjoint (b : Nat) (hb : 1 ≤ b)
    (l : List (Nat × PyStr)) (hn : (l.map Prod.fst).Nodup) :
    List.Pairwise List.Disjoint ((chunksOf b l).map (List.map Prod.fst)) := by
  have hflat : ((chunksOf b l).map (List.map Prod.fst)).flatten = l.map Prod.fst := by
    rw [← List.map_flatten, chunksOf_flatten b hb]
  have hnf : ((chunksOf b l).map (List.map Prod.fst)).flatten.Nodup := by
    rw [hflat]
    exact hn
  exact (List.nodup_flatten.mp hnf).2

/-- C5: a batch whose translation call fails after its retries is never
fatal and never escapes: every assembled batch is dispatched regardless
of earlier failures (the number of dispatches equals the number of
assembled batches), the failure list records, in order, exactly the
text lists and location lists of the batches whose call raised, and
every fragment of a failed batch retains its original source text at
its original position in the final document.  The orchestrator is a
total function into a result state, so no translation-call error value
reaches its caller. -/
theorem failure_isolation (tk : Nat → List PyStr → Except Unit (List PyStr))
    (b : Nat) (doc : List PyStr) (hb : 1 ≤ b) :
    (translatePresentation tk b doc).dispatched.length =
      (chunksOf b (eFilt 0 doc)).length ∧
    (translatePresentation tk b doc).failed =
      failedSpec tk 0 (chunksOf b (eFilt 0 doc)) ∧
    (∀ j batch, (chunksOf b (eFilt 0 doc))[j]? = some batch →
      tk j (batch.map Prod.snd) = Except.error () →
      ∀ q ∈ batch, (translatePresentation tk b doc).doc[q.1]? = some q.2) := by
  rw [translatePresentation_eq_spec tk b doc hb]
  unfold specOrderedRun
  refine ⟨?_, ?_, ?_⟩
  · rw [foldl_dispatchStep_dispatched]
    show ([] ++ _).length = _
    rw [List.nil_append, List.length_map]
  · rw [foldl_dispatchStep_failed]
    show [] ++ _ = failedSpec tk 0 _
    rw [List.nil_append]
    rfl
  · intro j batch hj herr q hq
    have hbmem : batch ∈ chunksOf b (eFilt 0 doc) := by
      rcases List.getElem?_eq_some.mp hj with ⟨hjlt, hjeq⟩
      rw [← hjeq]
      exact List.getElem_mem _
    have hqe : q ∈ eFilt 0 doc := by
      have : q ∈ (chunksOf b (eFilt 0 doc)).flatten :=
        List.mem_flatten.mpr ⟨batch, hbmem, hq⟩
      rwa [chunksOf_flatten b hb] at this
    rw [foldl_dispatchStep_doc_getElem? tk b q.1 _ (initSt doc) ?_]
    · exact eFilt_mem_getElem? doc q hqe
    · intro j' batch' hj'
      by_cases hjj : j' = j
      · subst hjj
        rw [hj'] at hj
        have hbb : batch' = batch := Option.some.inj hj
        subst hbb
        left
        exact ⟨(), by show tk (0 + j') _ = _; rw [Nat.zero_add]; exact herr⟩
      · right
        intro q' hq' hcon
        have hpw := chunks_fst_pairwise_disjoint b hb (eFilt 0 doc)
          (eFilt_fst_nodup 0 doc)
        rw [List.pairwise_iff_getElem] at hpw
        rcases List.getElem?_eq_some.mp hj with ⟨hjlt, hjeq⟩
        rcases List.getElem?_eq_some.mp hj' with ⟨hjlt', hjeq'⟩
        have hmem1 : q.1 ∈ batch.map Prod.fst :=
          List.mem_map.mpr ⟨q, hq, rfl⟩
        have hmem2 : q.1 ∈ batch'.map Prod.fst := by
          rw [← hcon]
          exact List.mem_map.mpr ⟨q', hq', rfl⟩
        have hmap : ∀ (i : Nat) (bl : List (Nat × PyStr)),
            (chunksOf b (eFilt 0 doc))[i]? = some bl →
            ((chunksOf b (eFilt 0 doc)).map (List.map Prod.fst))[i]? =
              some (bl.map Prod.fst) := by
          intro i bl hi
          rw [List.getElem?_map, hi]
          rfl
        rcases List.getElem?_eq_some.mp (hmap j batch hj) with ⟨hl1, he1⟩
        rcases List.getElem?_eq_some.mp (hmap j' batch' hj') with ⟨hl2, he2⟩
        rcases Nat.lt_or_ge j' j with hlt | hge
        · have hd := hpw j' j hl2 hl1 hlt
          rw [he1, he2] at hd
          exact hd hmem2 hmem1
        · have hlt2 : j < j' := by omega
          have hd := hpw j j' hl1 hl2 hlt2
          rw [he1, he2] at hd
          exact hd hmem1 hmem2

theorem failure_isolation_witness :
    1 ≤ 2 ∧
    ((translatePresentation
        (fun (k : Nat) (ts : List PyStr) =>
          if k = 1 then Except.error () else Except.ok ts) 2
        [['a'], ['b'], ['c'], ['d'], ['e']]).dispatched.length =
      (chunksOf 2 (eFilt 0 [['a'], ['b'], ['c'], ['d'], ['e']])).length ∧
    (translatePresentation
        (fun (k : Nat) (ts : List PyStr) =>
          if k = 1 then Except.error () else Except.ok ts) 2
        [['a'], ['b'], ['c'], ['d'], ['e']]).failed =
      failedSpec (fun (k : Nat) (ts : List PyStr) =>
          if k = 1 then Except.error () else Except.ok ts) 0
        (chunksOf 2 (eFilt 0 [['a'], ['b'], ['c'], ['d'], ['e']])) ∧
    (∀ j batch, (chunksOf 2 (eFilt 0 [['a'], ['b'], ['c'], ['d'], ['e']]))[j]? = some batch →
      (fun (k : Nat) (ts : List PyStr) =>
          if k = 1 then Except.error () else Except.ok ts) j (batch.map Prod.snd) =
        Except.error () →
      ∀ q ∈ batch,
        (translatePresentation
          (fun (k : Nat) (ts : List PyStr) =>
            if k = 1 then Except.error () else Except.ok ts) 2
          [['a'], ['b'], ['c'], ['d'], ['e']]).doc[q.1]? = some q.2)) :=
  ⟨by decide,
    failure_isolation
      (fun (k : Nat) (ts : List PyStr) =>
        if k = 1 then Except.error () else Except.ok ts) 2
      [['a'], ['b'], ['c'], ['d'], ['e']] (by decide)⟩

/-- The string s contains no occurrence of the separator sep as a
contiguous substring. -/
def noDelim (sep s : PyStr) : Prop := ∀ u v : PyStr, s ≠ u ++ sep ++ v

theorem isPrefixOf_iff_append :
    ∀ (l m : List Char), l.isPrefixOf m = true ↔ ∃ t, m = l ++ t := by
  intro l
  induction l with
  | nil =>
    intro m
    simp [List.isPrefixOf]
  | cons a l ih =>
    intro m
    cases m with
    | nil =>
      simp only [List.isPrefixOf]
      constructor
      · intro h; cases h
      · rintro ⟨t, ht⟩
        cases ht
    | cons b m =>
      simp only [List.isPrefixOf, Bool.and_eq_true, beq_iff_eq]
      rw [ih m]
      constructor
      · rintro ⟨rfl, t, rfl⟩
        exact ⟨t, rfl⟩
      · rintro ⟨t, ht⟩
        rw [List.cons_append] at ht
        injection ht with h1 h2
        exact ⟨h1.symm, t, h2⟩

theorem sep_isEmpty_false (sep : PyStr) (hsep : sep ≠ []) :
    sep.isEmpty = false := by
  cases sep with
  | nil => exact absurd rfl hsep
  | cons a l => rfl

theorem findMatch_nil_of_ne (sep : PyStr) (hsep : sep ≠ []) :
    findMatch sep [] = none := by
  simp [findMatch, sep_isEmpty_false sep hsep]

theorem findMatch_none_iff (sep : PyStr) (hsep : sep ≠ []) :
    ∀ s : PyStr, findMatch sep s = none ↔ noDelim sep s := by
  intro s
  induction s with
  | nil =>
    rw [findMatch_nil_of_ne sep hsep]
    simp only [true_iff]
    intro u v h
    rcases List.append_eq_nil.mp h.symm with ⟨h1, _⟩
    rcases List.append_eq_nil.mp h1 with ⟨_, h2⟩
    exact hsep h2
  | cons a tl ih =>
    show (if sep.isPrefixOf (a :: tl) then some 0
      else (findMatch sep tl).map (· + 1)) = none ↔ _
    by_cases hp : sep.isPrefixOf (a :: tl)
    · rw [if_pos hp]
      constructor
      · intro h; exact Option.noConfusion h
      · intro hnd
        rcases (isPrefixOf_iff_append sep (a :: tl)).mp hp with ⟨t, ht⟩
        exact absurd ht (hnd [] t)
    · rw [if_neg hp]
      rw [Option.map_eq_none', ih]
      constructor
      · intro hnd u v heq
        cases u with
        | nil =>
          apply hp
          rw [(isPrefixOf_iff_append sep (a :: tl))]
          exact ⟨v, by simpa using heq⟩
        | cons a2 u2 =>
          rw [List.cons_append, List.cons_append] at heq
          injection heq with _ h2
          exact hnd u2 v h2
      · intro hnd u v heq
        exact hnd (a :: u) v (by rw [heq]; simp)

theorem findMatch_eq_some_iff (sep : PyStr) (hsep : sep ≠ []) :
    ∀ (s : PyStr) (i : Nat), findMatch sep s = some i ↔
      ((∃ t, s.drop i = sep ++ t) ∧ ∀ j, j < i → ∀ t, s.drop j ≠ sep ++ t) := by
  intro s
  induction s with
  | nil =>
    intro i
    rw [findMatch_nil_of_ne sep hsep]
    constructor
    · intro h; exact Option.noConfusion h
    · rintro ⟨⟨t, ht⟩, _⟩
      rw [List.drop_nil] at ht
      rcases List.append_eq_nil.mp ht.symm with ⟨h1, _⟩
      exact absurd h1 hsep
  | cons a tl ih =>
    intro i
    show (if sep.isPrefixOf (a :: tl) then some 0
      else (findMatch sep tl).map (· + 1)) = some i ↔ _
    by_cases hp : sep.isPrefixOf (a :: tl)
    · rw [if_pos hp]
      cases i with
      | zero =>
        simp only [List.drop_zero, true_iff]
        constructor
        · rcases (isPrefixOf_iff_append sep (a :: tl)).mp hp with ⟨t, ht⟩
          exact ⟨t, ht⟩
        · intro j hj
          omega
      | succ i2 =>
        simp only [Option.some.injEq]
        constructor
        · intro h; omega
        · rintro ⟨_, hmin⟩
          exfalso
          rcases (isPrefixOf_iff_append sep (a :: tl)).mp hp with ⟨t, ht⟩
          exact hmin 0 (by omega) t ht
    · rw [if_neg hp]
      cases i with
      | zero =>
        simp only [List.drop_zero]
        constructor
        · intro h
          rcases Option.map_eq_some'.mp h with ⟨i', _, hi'⟩
          omega
        · rintro ⟨⟨t, ht⟩, _⟩
          exfalso
          apply hp
          rw [isPrefixOf_iff_append]
          exact ⟨t, ht⟩
      | succ i2 =>
        constructor
        · intro h
          rcases Option.map_eq_some'.mp h with ⟨i', hfm, hi'⟩
          have hi2 : i' = i2 := by omega
          subst hi2
          rcases (ih i').mp hfm with ⟨⟨t, ht⟩, hmin⟩
          refine ⟨⟨t, ht⟩, ?_⟩
          intro j hj t2
          cases j with
          | zero =>
            simp only [List.drop_zero]
            intro heq
            apply hp
            rw [isPrefixOf_iff_append]
            exact ⟨t2, heq⟩
          | succ j2 =>
            have hj2 : j2 < i' := by omega
            exact hmin j2 hj2 t2
        · rintro ⟨⟨t, ht⟩, hmin⟩
          have hfm : findMatch sep tl = some i2 := by
            rw [ih i2]
            refine ⟨⟨t, ht⟩, ?_⟩
            intro j hj t2 heq
            exact hmin (j + 1) (by omega) t2 heq
          rw [hfm]
          rfl

theorem noDelim_append_right (sep x y : PyStr) (h : noDelim sep (x ++ y)) :
    noDelim sep y := by
  intro u v heq
  exact h (x ++ u) v (by rw [heq]; simp [List.append_assoc])

theorem noDelim_append_left (sep x y : PyStr) (h : noDelim sep (x ++ y)) :
    noDelim sep x := by
  intro u v heq
  exact h u (v ++ y) (by rw [heq]; simp [List.append_assoc])

theorem getLast?_append_of_ne_nil (u v : List Char) (hv : v ≠ []) :
    (u ++ v).getLast? = v.getLast? := by
  rw [List.getLast?_append]
  rcases List.eq_nil_or_concat v with rfl | ⟨v2, ch, rfl⟩
  · exact absurd rfl hv
  · rw [List.concat_eq_append, List.getLast?_concat]
    rfl

theorem findMatch_boundary (sep : PyStr) (hsep : sep ≠ [])
    (c rest : PyStr) (hc : noDelim sep c)
    (hlast : ∀ ch, c.getLast? = some ch → ch ∉ sep) :
    findMatch sep (c ++ sep ++ rest) = some c.length := by
  rw [findMatch_eq_some_iff sep hsep]
  constructor
  · refine ⟨rest, ?_⟩
    rw [List.append_assoc]
    exact List.drop_left c (sep ++ rest)
  · intro j hj t heq
    have hda : (c ++ (sep ++ rest)).drop j = c.drop j ++ (sep ++ rest) := by
      rw [List.drop_append_eq_append_drop, Nat.sub_eq_zero_of_le (le_of_lt hj),
        List.drop_zero]
    rw [List.append_assoc, hda] at heq
    have hdne : c.drop j ≠ [] := by
      apply List.ne_nil_of_length_pos
      rw [List.length_drop]
      omega
    rcases le_or_lt sep.length (c.drop j).length with hls | hls
    · have hself : (c.drop j).take sep.length = sep := by
        have h1 : (c.drop j ++ (sep ++ rest)).take sep.length =
            (c.drop j).take sep.length := by
          rw [List.take_append_eq_append_take, Nat.sub_eq_zero_of_le hls,
            List.take_zero, List.append_nil]
        have h2 : (sep ++ t).take sep.length = sep := List.take_left sep t
        rw [heq, h2] at h1
        exact h1.symm
      have hdj : c.drop j = sep ++ (c.drop j).drop sep.length := by
        conv_lhs => rw [← List.take_append_drop sep.length (c.drop j)]
        rw [hself]
      have hcc : c = c.take j ++ sep ++ (c.drop j).drop sep.length := by
        rw [List.append_assoc, ← hdj, List.take_append_drop]
      exact hc (c.take j) ((c.drop j).drop sep.length) hcc
    · have hpref : c.drop j = sep.take (c.drop j).length := by
        have h1 : (c.drop j ++ (sep ++ rest)).take (c.drop j).length = c.drop j :=
          List.take_left _ _
        have h2 : (sep ++ t).take (c.drop j).length =
            sep.take (c.drop j).length := by
          rw [List.take_append_eq_append_take, Nat.sub_eq_zero_of_le (le_of_lt hls),
            List.take_zero, List.append_nil]
        rw [heq, h2] at h1
        exact h1.symm
      rcases List.eq_nil_or_concat (c.drop j) with hnil | ⟨l2, ch, hcc⟩
      · exact absurd hnil hdne
      · have hch : (c.drop j).getLast? = some ch := by
          rw [hcc, List.concat_eq_append, List.getLast?_concat]
        have hmem : ch ∈ c.drop j := by
          rw [hcc, List.concat_eq_append]
          simp
        have hmemsep : ch ∈ sep := by
          rw [hpref] at hmem
          exact List.mem_of_mem_take hmem
        have hlastc : c.getLast? = some ch := by
          rw [← List.take_append_drop j c]
          rw [getLast?_append_of_ne_nil _ _ hdne]
          exact hch
        exact hlast ch hlastc hmemsep

theorem pySplitAux_congr (sep : PyStr) (hsep : sep ≠ []) :
    ∀ (fuel1 fuel2 : Nat) (s : PyStr), s.length ≤ fuel1 → s.length ≤ fuel2 →
      pySplitAux sep fuel1 s = pySplitAux sep fuel2 s := by
  intro fuel1
  induction fuel1 with
  | zero =>
    intro fuel2 s h1 _
    have hs : s = [] := List.eq_nil_of_length_eq_zero (by omega)
    subst hs
    cases fuel2 with
    | zero => rfl
    | succ m => simp [pySplitAux, findMatch_nil_of_ne sep hsep]
  | succ n ih =>
    intro fuel2 s h1 h2
    cases s with
    | nil =>
      cases fuel2 with
      | zero => simp [pySplitAux, findMatch_nil_of_ne sep hsep]
      | succ m => simp [pySplitAux, findMatch_nil_of_ne sep hsep]
    | cons a tl =>
      cases fuel2 with
      | zero => simp at h2
      | succ m =>
        simp only [pySplitAux]
        cases hm : findMatch sep (a :: tl) with
        | none => rfl
        | some i =>
          have hsl : 1 ≤ sep.length := by
            cases sep with
            | nil => exact absurd rfl hsep
            | cons x xs => simp
          simp only []
          congr 1
          apply ih
          · simp only [List.length_drop, List.length_cons] at *
            omega
          · simp only [List.length_drop, List.length_cons] at *
            omega

theorem pySplit_of_none (sep s : PyStr) (hsep : sep ≠ [])
    (h : findMatch sep s = none) : pySplit sep s = [s] := by
  unfold pySplit
  cases s with
  | nil => rfl
  | cons a tl =>
    show pySplitAux sep (tl.length + 1) (a :: tl) = _
    simp [pySplitAux, h]

theorem pySplit_pos (sep s : PyStr) (i : Nat) (hsep : sep ≠ [])
    (h : findMatch sep s = some i) :
    pySplit sep s = s.take i :: pySplit sep (s.drop (i + sep.length)) := by
  unfold pySplit
  cases s with
  | nil =>
    rw [findMatch_nil_of_ne sep hsep] at h
    cases h
  | cons a tl =>
    show pySplitAux sep (tl.length + 1) (a :: tl) = _
    simp only [pySplitAux, h]
    congr 1
    apply pySplitAux_congr sep hsep
    · have hsl : 1 ≤ sep.length := by
        cases sep with
        | nil => exact absurd rfl hsep
        | cons x xs => simp
      simp only [List.length_drop, List.length_cons]
      omega
    · exact le_refl _

theorem pySplit_interSep (sep : PyStr) (hsep : sep ≠ []) :
    ∀ (chunks : List PyStr), chunks ≠ [] →
      (∀ c ∈ chunks, noDelim sep c) →
      (∀ c ∈ chunks.dropLast, ∀ ch, c.getLast? = some ch → ch ∉ sep) →
      pySplit sep (interSep sep chunks) = chunks := by
  intro chunks
  induction chunks with
  | nil => intro h; exact absurd rfl h
  | cons c cs ih =>
    intro _ hfree hbdy
    cases cs with
    | nil =>
      show pySplit sep c = [c]
      apply pySplit_of_none sep c hsep
      rw [findMatch_none_iff sep hsep]
      exact hfree c (List.mem_cons_self _ _)
    | cons c2 cs2 =>
      show pySplit sep (c ++ sep ++ interSep sep (c2 :: cs2)) = _
      have hbc : ∀ ch, c.getLast? = some ch → ch ∉ sep := by
        intro ch hch
        apply hbdy c ?_ ch hch
        rw [List.dropLast_cons_of_ne_nil (by simp)]
        exact List.mem_cons_self _ _
      have hI := findMatch_boundary sep hsep c (interSep sep (c2 :: cs2))
        (hfree c (List.mem_cons_self _ _)) hbc
      rw [pySplit_pos sep _ c.length hsep hI]
      congr 1
      · rw [List.append_assoc]
        exact List.take_left c _
      · have hdrop : (c ++ sep ++ interSep sep (c2 :: cs2)).drop (c.length + sep.length) =
            interSep sep (c2 :: cs2) := by
          have : (c ++ sep).length = c.length + sep.length := List.length_append _ _
          rw [← this, List.drop_left]
        rw [hdrop]
        apply ih (by simp) (fun x hx => hfree x (List.mem_cons_of_mem _ hx))
        intro x hx
        apply hbdy x
        rw [List.dropLast_cons_of_ne_nil (by simp)]
        exact List.mem_cons_of_mem _ hx

/-- The tail chunks of the combined text between the marker
occurrences: each middle fragment is wrapped in the newlines of the
join delimiter on both sides, the final fragment only on its left. -/
def nlTailChunks : List PyStr → List PyStr
  | [] => []
  | [t] => ['\n' :: t]
  | t :: t2 :: ts => ('\n' :: (t ++ ['\n'])) :: nlTailChunks (t2 :: ts)

/-- The chunks of the combined text between the marker occurrences:
the first fragment carries only its right newline. -/
def nlChunks : List PyStr → List PyStr
  | [] => []
  | [t] => [t]
  | t :: t2 :: ts => (t ++ ['\n']) :: nlTailChunks (t2 :: ts)

theorem nlTailChunks_ne_nil (t : PyStr) (ts : List PyStr) :
    nlTailChunks (t :: ts) ≠ [] := by
  cases ts <;> simp [nlTailChunks]

theorem interSep_cons_of_ne_nil (sep : PyStr) (c : PyStr) (cs : List PyStr)
    (h : cs ≠ []) : interSep sep (c :: cs) = c ++ sep ++ interSep sep cs := by
  cases cs with
  | nil => exact absurd rfl h
  | cons x xs => rfl

theorem interSep_nlTail :
    ∀ (ts : List PyStr), ts ≠ [] →
      interSep marker (nlTailChunks ts) = '\n' :: interSep joinDelim ts := by
  intro ts
  induction ts with
  | nil => intro h; exact absurd rfl h
  | cons t ts2 ih =>
    intro _
    cases ts2 with
    | nil => rfl
    | cons t2 ts3 =>
      rw [show nlTailChunks (t :: t2 :: ts3) =
        ('\n' :: (t ++ ['\n'])) :: nlTailChunks (t2 :: ts3) from rfl]
      rw [interSep_cons_of_ne_nil marker _ _ (nlTailChunks_ne_nil t2 ts3)]
      rw [ih (by simp)]
      rw [show interSep joinDelim (t :: t2 :: ts3) =
        t ++ joinDelim ++ interSep joinDelim (t2 :: ts3) from rfl]
      simp [marker, joinDelim, List.append_assoc]

theorem interSep_nlChunks (ts : List PyStr) :
    interSep marker (nlChunks ts) = combinedText ts := by
  cases ts with
  | nil => rfl
  | cons t ts2 =>
    cases ts2 with
    | nil => rfl
    | cons t2 ts3 =>
      rw [show nlChunks (t :: t2 :: ts3) =
        (t ++ ['\n']) :: nlTailChunks (t2 :: ts3) from rfl]
      rw [interSep_cons_of_ne_nil marker _ _ (nlTailChunks_ne_nil t2 ts3)]
      rw [interSep_nlTail (t2 :: ts3) (by simp)]
      rw [show combinedText (t :: t2 :: ts3) =
        t ++ joinDelim ++ interSep joinDelim (t2 :: ts3) from rfl]
      simp [marker, joinDelim, List.append_assoc]

theorem nlTailChunks_length : ∀ ts : List PyStr, (nlTailChunks ts).length = ts.length := by
  intro ts
  induction ts with
  | nil => rfl
  | cons t ts2 ih =>
    cases ts2 with
    | nil => rfl
    | cons t2 ts3 =>
      show (nlTailChunks (t2 :: ts3)).length + 1 = ts3.length + 1 + 1
      rw [ih]
      simp

theorem nlChunks_length (ts : List PyStr) : (nlChunks ts).length = ts.length := by
  cases ts with
  | nil => rfl
  | cons t ts2 =>
    cases ts2 with
    | nil => rfl
    | cons t2 ts3 =>
      show (nlTailChunks (t2 :: ts3)).length + 1 = ts3.length + 1 + 1
      rw [nlTailChunks_length]
      simp

theorem noDelim_cons_nl (t : PyStr) (h : noDelim marker t) :
    noDelim marker ('\n' :: t) := by
  intro u v heq
  cases u with
  | nil =>
    rw [List.nil_append, marker] at heq
    injection heq with h1 _
    cases h1
  | cons a u2 =>
    rw [List.cons_append, List.cons_append] at heq
    injection heq with _ h2
    exact h u2 v h2

theorem noDelim_concat_nl (t : PyStr) (h : noDelim marker t) :
    noDelim marker (t ++ ['\n']) := by
  intro u v heq
  rcases List.eq_nil_or_concat v with rfl | ⟨v2, ch, rfl⟩
  · rw [List.append_nil] at heq
    have h1 : (t ++ ['\n']).getLast? = some '\n' := List.getLast?_concat t
    have h2 : (u ++ marker).getLast? = some '-' := by
      rw [show marker = ['-', '-'] ++ ['-'] from rfl, ← List.append_assoc]
      exact List.getLast?_concat _
    rw [heq, h2] at h1
    cases Option.some.inj h1
  · rw [List.concat_eq_append, ← List.append_assoc] at heq
    rcases List.append_inj' heq rfl with ⟨h1, _⟩
    exact h u v2 h1

theorem nlTailChunks_noDelim :
    ∀ (ts : List PyStr), (∀ t ∈ ts, noDelim marker t) →
      ∀ c ∈ nlTailChunks ts, noDelim marker c := by
  intro ts
  induction ts with
  | nil => intro _ c hc; cases hc
  | cons t ts2 ih =>
    intro hall c hc
    cases ts2 with
    | nil =>
      rcases List.mem_singleton.mp hc with rfl
      exact noDelim_cons_nl t (hall t (List.mem_cons_self _ _))
    | cons t2 ts3 =>
      rcases List.mem_cons.mp hc with rfl | hc2
      · exact noDelim_cons_nl _ (noDelim_concat_nl t (hall t (List.mem_cons_self _ _)))
      · exact ih (fun x hx => hall x (List.mem_cons_of_mem _ hx)) c hc2

theorem nlChunks_noDelim (ts : List PyStr) (hall : ∀ t ∈ ts, noDelim marker t) :
    ∀ c ∈ nlChunks ts, noDelim marker c := by
  cases ts with
  | nil => intro c hc; cases hc
  | cons t ts2 =>
    cases ts2 with
    | nil =>
      intro c hc
      rcases List.mem_singleton.mp hc with rfl
      exact hall c (List.mem_cons_self _ _)
    | cons t2 ts3 =>
      intro c hc
      rcases List.mem_cons.mp hc with rfl | hc2
      · exact noDelim_concat_nl t (hall t (List.mem_cons_self _ _))
      · exact nlTailChunks_noDelim (t2 :: ts3)
          (fun x hx => hall x (List.mem_cons_of_mem _ hx)) c hc2

theorem nlTailChunks_dropLast_boundary :
    ∀ (ts : List PyStr), ∀ c ∈ (nlTailChunks ts).dropLast,
      ∀ ch, c.getLast? = some ch → ch = '\n' := by
  intro ts
  induction ts with
  | nil => intro c hc; cases hc
  | cons t ts2 ih =>
    intro c hc ch hch
    cases ts2 with
    | nil => cases hc
    | cons t2 ts3 =>
      rw [show nlTailChunks (t :: t2 :: ts3) =
          ('\n' :: (t ++ ['\n'])) :: nlTailChunks (t2 :: ts3) from rfl] at hc
      rw [List.dropLast_cons_of_ne_nil (nlTailChunks_ne_nil t2 ts3)] at hc
      rcases List.mem_cons.mp hc with rfl | hc2
      · rw [show ('\n' :: (t ++ ['\n'])) = ('\n' :: t) ++ ['\n'] from by simp] at hch
        rw [List.getLast?_concat] at hch
        exact (Option.some.inj hch).symm
      · exact ih c hc2 ch hch

theorem nlChunks_dropLast_boundary (ts : List PyStr) :
    ∀ c ∈ (nlChunks ts).dropLast, ∀ ch, c.getLast? = some ch → ch = '\n' := by
  cases ts with
  | nil => intro c hc; cases hc
  | cons t ts2 =>
    cases ts2 with
    | nil => intro c hc; cases hc
    | cons t2 ts3 =>
      intro c hc ch hch
      rw [show nlChunks (t :: t2 :: ts3) =
          (t ++ ['\n']) :: nlTailChunks (t2 :: ts3) from rfl] at hc
      rw [List.dropLast_cons_of_ne_nil (nlTailChunks_ne_nil t2 ts3)] at hc
      rcases List.mem_cons.mp hc with rfl | hc2
      · rw [List.getLast?_concat] at hch
        exact (Option.some.inj hch).symm
      · exact nlTailChunks_dropLast_boundary (t2 :: ts3) c hc2 ch hch

theorem stripLead_interSep_marker (c : PyStr) (cs : List PyStr) :
    stripLead (interSep marker (c :: cs)) = interSep marker (stripLead c :: cs) := by
  cases cs with
  | nil => rfl
  | cons c2 cs2 =>
    rw [interSep_cons_of_ne_nil marker c (c2 :: cs2) (by simp)]
    rw [interSep_cons_of_ne_nil marker (stripLead c) (c2 :: cs2) (by simp)]
    unfold stripLead
    rw [List.append_assoc, List.dropWhile_append]
    by_cases h : (List.dropWhile Char.isWhitespace c).isEmpty
    · rw [if_pos h]
      have hm : List.dropWhile Char.isWhitespace
          (marker ++ interSep marker (c2 :: cs2)) =
          marker ++ interSep marker (c2 :: cs2) := by
        show List.dropWhile Char.isWhitespace
          ('-' :: (['-', '-'] ++ interSep marker (c2 :: cs2))) = _
        rw [List.dropWhile_cons]
        simp [marker]
      rw [hm]
      have hnil : List.dropWhile Char.isWhitespace c = [] := List.isEmpty_iff.mp h
      rw [hnil]
      simp
    · rw [if_neg h]
      rw [List.append_assoc]

theorem interSep_concat (sep : PyStr) (x : PyStr) :
    ∀ (L : List PyStr), L ≠ [] →
      interSep sep (L ++ [x]) = interSep sep L ++ sep ++ x := by
  intro L
  induction L with
  | nil => intro h; exact absurd rfl h
  | cons c cs ih =>
    intro _
    cases cs with
    | nil =>
      show interSep sep [c, x] = c ++ sep ++ x
      rfl
    | cons c2 cs2 =>
      rw [show (c :: c2 :: cs2) ++ [x] = c :: ((c2 :: cs2) ++ [x]) from rfl]
      rw [interSep_cons_of_ne_nil sep c ((c2 :: cs2) ++ [x]) (by simp)]
      rw [ih (by simp)]
      rw [interSep_cons_of_ne_nil sep c (c2 :: cs2) (by simp)]
      simp [List.append_assoc]

theorem interSep_reverse (sep : PyStr) (hpal : sep.reverse = sep) :
    ∀ L : List PyStr,
      (interSep sep L).reverse = interSep sep ((L.map List.reverse).reverse) := by
  intro L
  induction L with
  | nil => rfl
  | cons c cs ih =>
    cases cs with
    | nil => rfl
    | cons c2 cs2 =>
      rw [interSep_cons_of_ne_nil sep c (c2 :: cs2) (by simp)]
      rw [List.append_assoc, List.reverse_append, List.reverse_append]
      rw [ih, hpal]
      have h1 : ((c :: c2 :: cs2).map List.reverse).reverse =
          ((c2 :: cs2).map List.reverse).reverse ++ [c.reverse] := by
        simp
      rw [h1]
      rw [interSep_concat sep c.reverse _ (by simp)]

theorem marker_reverse : marker.reverse = marker := rfl

theorem stripTrail_interSep_marker (init : List PyStr) (last : PyStr) :
    stripTrail (interSep marker (init ++ [last])) =
      interSep marker (init ++ [stripTrail last]) := by
  show ((interSep marker (init ++ [last])).reverse.dropWhile Char.isWhitespace).reverse = _
  rw [interSep_reverse marker marker_reverse (init ++ [last])]
  have h1 : (((init ++ [last]).map List.reverse).reverse) =
      last.reverse :: (init.map List.reverse).reverse := by
    simp
  rw [h1]
  show (stripLead (interSep marker (last.reverse :: (init.map List.reverse).reverse))).reverse = _
  rw [stripLead_interSep_marker]
  rw [interSep_reverse marker marker_reverse]
  congr 1
  have h2 : ((init.map List.reverse).reverse.map List.reverse) = init.reverse := by
    simp
  show ((stripLead last.reverse :: (init.map List.reverse).reverse).map List.reverse).reverse = _
  rw [List.map_cons, h2]
  show ((stripLead last.reverse).reverse :: init.reverse).reverse = _
  rw [List.reverse_cons, List.reverse_reverse]
  rfl

/-- Apply a function to the last chunk only. -/
def mapLastChunks (f : PyStr → PyStr) : List PyStr → List PyStr
  | [] => []
  | [c] => [f c]
  | c :: c2 :: cs => c :: mapLastChunks f (c2 :: cs)

theorem mapLastChunks_concat (f : PyStr → PyStr) :
    ∀ (init : List PyStr) (last : PyStr),
      mapLastChunks f (init ++ [last]) = init ++ [f last] := by
  intro init
  induction init with
  | nil => intro last; rfl
  | cons c cs ih =>
    intro last
    cases hcs : cs ++ [last] with
    | nil => simp at hcs
    | cons x xs =>
      show mapLastChunks f (c :: (cs ++ [last])) = _
      rw [hcs]
      show c :: mapLastChunks f (x :: xs) = c :: (cs ++ [f last])
      rw [← hcs, ih last]

/-- The chunk decomposition of the stripped combined text: the leading
whitespace strip applies to the first chunk, the trailing one to the
last. -/
def strippedChunks (texts : List PyStr) : List PyStr :=
  match nlChunks texts with
  | [] => []
  | c :: cs => mapLastChunks stripTrail (stripLead c :: cs)

theorem mapLastChunks_length (f : PyStr → PyStr) :
    ∀ l : List PyStr, (mapLastChunks f l).length = l.length := by
  intro l
  induction l with
  | nil => rfl
  | cons c cs ih =>
    cases cs with
    | nil => rfl
    | cons c2 cs2 =>
      show (mapLastChunks f (c2 :: cs2)).length + 1 = cs2.length + 1 + 1
      rw [ih]
      simp

theorem strippedChunks_length (texts : List PyStr) :
    (strippedChunks texts).length = texts.length := by
  unfold strippedChunks
  cases hnc : nlChunks texts with
  | nil =>
    rw [← nlChunks_length texts, hnc]
  | cons c cs =>
    have h1 : (mapLastChunks stripTrail (stripLead c :: cs)).length =
        cs.length + 1 := by
      rw [mapLastChunks_length]
      rfl
    rw [h1, ← nlChunks_length texts, hnc]
    rfl

theorem strippedChunks_eq_nil (texts : List PyStr) (hnc : nlChunks texts = []) :
    strippedChunks texts = [] := by
  unfold strippedChunks
  rw [hnc]

theorem strippedChunks_eq_cons (texts : List PyStr) (c : PyStr) (cs : List PyStr)
    (hnc : nlChunks texts = c :: cs) :
    strippedChunks texts = mapLastChunks stripTrail (stripLead c :: cs) := by
  unfold strippedChunks
  rw [hnc]

theorem pyStrip_combined (texts : List PyStr) :
    pyStrip (combinedText texts) = interSep marker (strippedChunks texts) := by
  rw [← interSep_nlChunks texts]
  cases hnc : nlChunks texts with
  | nil =>
    rw [strippedChunks_eq_nil texts hnc]
    rfl
  | cons c cs =>
    rw [strippedChunks_eq_cons texts c cs hnc]
    unfold pyStrip
    rw [stripLead_interSep_marker c cs]
    rcases List.eq_nil_or_concat cs with rfl | ⟨cs2, lastc, hcs⟩
    · rfl
    · rw [List.concat_eq_append] at hcs
      subst hcs
      have hdec : stripLead c :: (cs2 ++ [lastc]) = (stripLead c :: cs2) ++ [lastc] := by
        simp
      rw [hdec, stripTrail_interSep_marker (stripLead c :: cs2) lastc]
      rw [mapLastChunks_concat]

theorem noDelim_stripLead (s : PyStr) (h : noDelim marker s) :
    noDelim marker (stripLead s) := by
  intro u v heq
  apply h (s.takeWhile Char.isWhitespace ++ u) v
  conv_lhs => rw [← List.takeWhile_append_dropWhile Char.isWhitespace s]
  rw [show (stripLead s : PyStr) = List.dropWhile Char.isWhitespace s from rfl] at heq
  rw [heq]
  simp [List.append_assoc]

theorem noDelim_stripTrail (s : PyStr) (h : noDelim marker s) :
    noDelim marker (stripTrail s) := by
  intro u v heq
  apply h u (v ++ (s.reverse.takeWhile Char.isWhitespace).reverse)
  have hs : s = stripTrail s ++ (s.reverse.takeWhile Char.isWhitespace).reverse := by
    show s = (s.reverse.dropWhile Char.isWhitespace).reverse ++ _
    rw [← List.reverse_append, List.takeWhile_append_dropWhile, List.reverse_reverse]
  conv_lhs => rw [hs]
  rw [heq]
  simp [List.append_assoc]

theorem strippedChunks_noDelim (texts : List PyStr)
    (hall : ∀ t ∈ texts, noDelim marker t) :
    ∀ c ∈ strippedChunks texts, noDelim marker c := by
  cases hnc : nlChunks texts with
  | nil =>
    rw [strippedChunks_eq_nil texts hnc]
    intro c hc
    cases hc
  | cons c0 cs =>
    rw [strippedChunks_eq_cons texts c0 cs hnc]
    have hnl : ∀ c ∈ (c0 :: cs), noDelim marker c := by
      rw [← hnc]
      exact nlChunks_noDelim texts hall
    rcases List.eq_nil_or_concat cs with rfl | ⟨cs2, lastc, hcs⟩
    · intro c hc
      rcases List.mem_singleton.mp hc with rfl
      exact noDelim_stripTrail _ (noDelim_stripLead _ (hnl c0 (List.mem_cons_self _ _)))
    · rw [List.concat_eq_append] at hcs
      subst hcs
      intro c hc
      rw [show stripLead c0 :: (cs2 ++ [lastc]) = (stripLead c0 :: cs2) ++ [lastc] from
        by simp, mapLastChunks_concat] at hc
      rcases List.mem_append.mp hc with hc1 | hc2
      · rcases List.mem_cons.mp hc1 with rfl | hc3
        · exact noDelim_stripLead _ (hnl c0 (List.mem_cons_self _ _))
        · exact hnl c (List.mem_cons_of_mem _ (List.mem_append_left _ hc3))
      · rcases List.mem_singleton.mp hc2 with rfl
        exact noDelim_stripTrail _
          (hnl lastc (List.mem_cons_of_mem _ (List.mem_append_right _ (List.mem_singleton_self _))))

theorem stripLead_getLast? (s : PyStr) (hne : stripLead s ≠ []) :
    (stripLead s).getLast? = s.getLast? := by
  conv_rhs => rw [show s = s.takeWhile Char.isWhitespace ++ stripLead s from
    (List.takeWhile_append_dropWhile Char.isWhitespace s).symm]
  rw [getLast?_append_of_ne_nil _ _ hne]

theorem strippedChunks_boundary (texts : List PyStr) :
    ∀ c ∈ (strippedChunks texts).dropLast, ∀ ch, c.getLast? = some ch →
      ch ∉ marker := by
  cases hnc : nlChunks texts with
  | nil =>
    rw [strippedChunks_eq_nil texts hnc]
    intro c hc
    cases hc
  | cons c0 cs =>
    rw [strippedChunks_eq_cons texts c0 cs hnc]
    have hbdy : ∀ c ∈ (c0 :: cs).dropLast, ∀ ch, c.getLast? = some ch → ch = '\n' := by
      rw [← hnc]
      exact nlChunks_dropLast_boundary texts
    rcases List.eq_nil_or_concat cs with rfl | ⟨cs2, lastc, hcs⟩
    · intro c hc
      cases hc
    · rw [List.concat_eq_append] at hcs
      subst hcs
      intro c hc ch hch
      rw [show stripLead c0 :: (cs2 ++ [lastc]) = (stripLead c0 :: cs2) ++ [lastc] from
        by simp, mapLastChunks_concat, List.dropLast_concat] at hc
      have hnlb : c0 :: cs2 = (c0 :: (cs2 ++ [lastc])).dropLast := by
        rw [List.dropLast_cons_of_ne_nil (by simp)]
        rw [List.dropLast_concat]
      have hch_nl : ch = '\n' := by
        rcases List.mem_cons.mp hc with rfl | hc2
        · have hne : stripLead c0 ≠ [] := by
            intro h0
            rw [h0] at hch
            cases hch
          rw [stripLead_getLast? c0 hne] at hch
          exact hbdy c0 (by rw [← hnlb]; exact List.mem_cons_self _ _) ch hch
        · exact hbdy c (by rw [← hnlb]; exact List.mem_cons_of_mem _ hc2) ch hch
      subst hch_nl
      decide

/-- C3: the batch path splits the backend response on the same reserved
marker that joins the input texts (the marker on its own line), so for
a backend that echoes the combined text unchanged — which the code then
strips — the split yields exactly one segment per input fragment,
provided no input fragment itself contains the marker. -/
theorem delimiter_split_roundtrip (texts : List PyStr) (hne : texts ≠ [])
    (hfree : ∀ t ∈ texts, findMatch marker t = none) :
    (responseTranslations (pyStrip (combinedText texts))).length = texts.length := by
  have hmar : (marker : PyStr) ≠ [] := by simp [marker]
  have hall : ∀ t ∈ texts, noDelim marker t := fun t ht =>
    (findMatch_none_iff marker hmar t).mp (hfree t ht)
  unfold responseTranslations
  rw [List.length_map, pyStrip_combined texts]
  rw [pySplit_interSep marker hmar (strippedChunks texts)
    (by
      apply List.ne_nil_of_length_pos
      rw [strippedChunks_length]
      exact List.length_pos.mpr hne)
    (strippedChunks_noDelim texts hall)
    (strippedChunks_boundary texts)]
  exact strippedChunks_length texts

theorem delimiter_split_roundtrip_witness :
    ([['a'], ['b']] : List PyStr) ≠ [] ∧
    (∀ t ∈ ([['a'], ['b']] : List PyStr), findMatch marker t = none) ∧
    (responseTranslations (pyStrip (combinedText [['a'], ['b']]))).length =
      ([['a'], ['b']] : List PyStr).length :=
  ⟨by decide, by decide,
    delimiter_split_roundtrip [['a'], ['b']] (by decide) (by decide)⟩

/-- Index of the last occurrence of a character, Python str.rfind
(none when absent, where Python returns -1). -/
def rfindChar (c : Char) (p : List Char) : Option Nat :=
  (p.reverse.findIdx? (· == c)).map (fun i => p.length - 1 - i)

/-- os.path.splitext: split at the last dot, unless every character of
the basename before that dot is itself a dot (leading dots carry no
extension); the basename starts after the last path separator. -/
def splitext (p : List Char) : List Char × List Char :=
  match rfindChar '.' p with
  | none => (p, [])
  | some d =>
    let start : Nat :=
      match rfindChar '/' p with
      | none => 0
      | some s => s + 1
    if start ≤ d then
      if ((p.drop start).take (d - start)).any (fun ch => ch != '.') then
        (p.take d, p.drop d)
      else (p, [])
    else (p, [])

/-- The output path of lines 161-162: the stem with _cn appended,
followed by the original extension, independent of the target
language. -/
def outputFileName (input_file : List Char) : List Char :=
  (splitext input_file).1 ++ ['_', 'c', 'n'] ++ (splitext input_file).2

/-- File-system effects of translate_presentation_with_batching:
reading the input presentation (line 164) and saving the translated
presentation (line 227). -/
inductive FileEffect
  | read (p : List Char)
  | write (p : List Char)
deriving DecidableEq

/-- translate_presentation_with_batching including its file effects: it
opens the input file, runs the pipeline on the extracted run texts, and
saves the result to the derived output path, which it returns. -/
def translatePresentationFile (tk : Nat → List PyStr → Except Unit (List PyStr))
    (b : Nat) (input_file : List Char) (doc : List PyStr) :
    List Char × OrchSt × List FileEffect :=
  (outputFileName input_file, translatePresentation tk b doc,
    [FileEffect.read input_file, FileEffect.write (outputFileName input_file)])

theorem splitext_append (p : List Char) :
    (splitext p).1 ++ (splitext p).2 = p := by
  unfold splitext
  cases hd : rfindChar '.' p with
  | none => simp
  | some d =>
    dsimp only
    by_cases h1 : (match rfindChar '/' p with
      | none => 0
      | some s => s + 1) ≤ d
    · rw [if_pos h1]
      by_cases h2 : ((p.drop (match rfindChar '/' p with
          | none => 0
          | some s => s + 1)).take (d - (match rfindChar '/' p with
          | none => 0
          | some s => s + 1))).any (fun ch => ch != '.')
      · rw [if_pos h2]
        exact List.take_append_drop d p
      · rw [if_neg h2]
        simp
    · rw [if_neg h1]
      simp

theorem outputFileName_length (p : List Char) :
    (outputFileName p).length = p.length + 3 := by
  unfold outputFileName
  have h : (splitext p).1.length + (splitext p).2.length = p.length := by
    rw [← List.length_append, splitext_append]
  simp only [List.length_append, List.length_cons, List.length_nil]
  omega

/-- C10: the orchestrator saves the translated presentation to a new
path obtained by appending _cn to the stem of the input path before its
extension (the stem and extension reassemble to the input path), and
returns that path; the path derivation does not depend on the target
language, and the only file write of the pipeline targets the output
path, which always differs from the input path, so the input file is
never modified by the pipeline itself. -/
theorem output_path_and_frame (tk : Nat → List PyStr → Except Unit (List PyStr))
    (b : Nat) (input_file : List Char) (doc : List PyStr) :
    (translatePresentationFile tk b input_file doc).1 = outputFileName input_file ∧
    (splitext input_file).1 ++ (splitext input_file).2 = input_file ∧
    outputFileName input_file =
      (splitext input_file).1 ++ ['_', 'c', 'n'] ++ (splitext input_file).2 ∧
    outputFileName input_file ≠ input_file ∧
    ((translatePresentationFile tk b input_file doc).2.2.filterMap
      (fun e => match e with
        | FileEffect.write q => some q
        | FileEffect.read _ => none)) = [outputFileName input_file] ∧
    (∀ q, FileEffect.write q ∈ (translatePresentationFile tk b input_file doc).2.2 →
      q ≠ input_file) := by
  have hne : outputFileName input_file ≠ input_file := by
    intro h
    have := congrArg List.length h
    rw [outputFileName_length] at this
    omega
  refine ⟨rfl, splitext_append input_file, rfl, hne, rfl, ?_⟩
  intro q hq
  simp only [translatePresentationFile, List.mem_cons, List.mem_singleton] at hq
  rcases hq with h1 | h2
  · cases h1
  · rcases h2 with h3 | h4
    · rw [FileEffect.write.injEq] at h3
      rw [h3]
      exact hne
    · cases h4

end TranslatePpt
